import Mathlib

/-!
Verification of the reactive signal graph underlying the `nberlette/tui`
terminal UI toolkit, together with two facts about UI components that
consume it (`Tui.rectangle` and `Slider` input handlers).

The signal core (`src/signals/signal.ts`, `computed.ts`, `lazy_computed.ts`,
`effect.ts`, `lazy_effect.ts`, `flusher.ts`, `dependency_tracking.ts`,
`signalify.ts`) is only re-exported by the snapshot (`src/signals/mod.ts`);
its definitions are therefore modelled from the specification, as marked on
each definition.  Components (`tui.ts`, `components/slider.ts`) are embedded
from their sources.
-/

namespace TuiSignals

/-- Modelled from the spec: the closed set of node variants of the missing
signal core — Source Cell, eager/lazy Derived Cell, eager/lazy Effect
(spec §2, §9 "closed set of tagged variants"). -/
inductive NodeKind
  | source
  | computedEager
  | computedLazy
  | effectEager
  | effectLazy
deriving DecidableEq, Repr

/-- Modelled from the spec: a pure compute body of a Derived Cell of the
missing signal core — its only side effect is reading other cells
(spec §4.3); `throwE` models a compute function that throws. -/
inductive Expr
  | const (n : Int)
  | readCell (c : Nat)
  | add (a b : Expr)
  | throwE
deriving DecidableEq, Repr

/-- Modelled from the spec: an Effect callback body of the missing signal
core — arbitrary side effects, here tracked reads and writes of cells
(spec §4.4). -/
inductive Cmd
  | skip
  | seq (a b : Cmd)
  | readC (c : Nat)
  | writeC (c : Nat) (e : Expr)
deriving DecidableEq, Repr

/-- Modelled from the spec: one node of the reactive graph of the missing
signal core.  A Source Cell holds a value, a version counter and a
subscriber set (spec §3); a Derived Cell holds a cached value, a dirty flag,
its compute function and its dependency edge set (spec §3); an Effect holds
a callback, its edge set and a disposed flag (spec §3).  Unused fields keep
their defaults for a given kind. -/
structure Node where
  kind : NodeKind := .source
  value : Int := 0
  version : Nat := 0
  dirty : Bool := false
  disposed : Bool := false
  active : Bool := true
  compute : Expr := .const 0
  callback : Cmd := .skip
  deps : List Nat := []
  subs : List Nat := []
deriving DecidableEq, Repr

/-- Modelled from the spec: the state of one reactive scope of the missing
signal core — the arena of nodes, the Dependency Tracker's evaluation stack
(each frame holds the observer and the cells read so far, spec §4.2), the
Flusher's pending effect set (spec §4.5), and a ghost log of every node
whose compute/callback was invoked under `runTracked`, used only to state
"executes exactly once" properties. -/
structure RState where
  cells : Nat → Node
  stack : List (Nat × List Nat) := []
  pending : List Nat := []
  log : List Nat := []

/-- Modelled from the spec: evaluation outcomes of the missing signal core —
CyclicDependency, FlushOverflow and CallbackFailure of spec §7, plus `fuel`
for exhausted recursion fuel of the embedding. -/
inductive Err
  | fuel
  | cyclic
  | thrown
  | overflow
deriving DecidableEq, Repr

def isComputed : NodeKind → Bool
  | .computedEager => true
  | .computedLazy => true
  | _ => false

def isEffect : NodeKind → Bool
  | .effectEager => true
  | .effectLazy => true
  | _ => false

def setCell (s : RState) (i : Nat) (n : Node) : RState :=
  { s with cells := Function.update s.cells i n }

def modifyCell (s : RState) (i : Nat) (f : Node → Node) : RState :=
  setCell s i (f (s.cells i))

/-- Modelled from the spec: `currentObserver()` is the top of the evaluation
stack (spec §4.2); a tracked read records the cell into the top frame's read
set (dedicated, duplicate-free). -/
def recordRead (s : RState) (c : Nat) : RState :=
  match s.stack with
  | [] => s
  | (o, reads) :: rest =>
      { s with stack := (o, if c ∈ reads then reads else reads ++ [c]) :: rest }

def onStack (s : RState) (c : Nat) : Bool :=
  s.stack.any (fun f => f.1 = c)

def pushFrame (s : RState) (o : Nat) : RState :=
  { s with stack := (o, []) :: s.stack }

def popFrame (s : RState) : List Nat × RState :=
  match s.stack with
  | [] => ([], s)
  | (_, reads) :: rest => (reads, { s with stack := rest })

def logEval (s : RState) (o : Nat) : RState :=
  { s with log := s.log ++ [o] }

/-- Modelled from the spec: `enqueue(effectHandle)` adds the effect to the
pending set with set semantics — an effect appearing twice before the next
flush is coalesced to one entry (spec §4.5). -/
def enqueue (s : RState) (e : Nat) : RState :=
  if e ∈ s.pending then s else { s with pending := s.pending ++ [e] }

def unsubscribe (s : RState) (c o : Nat) : RState :=
  modifyCell s c (fun n => { n with subs := n.subs.filter (fun x => x ≠ o) })

def subscribeTo (s : RState) (c o : Nat) : RState :=
  modifyCell s c (fun n => if o ∈ n.subs then n else { n with subs := n.subs ++ [o] })

/-- Modelled from the spec: at the end of a tracked evaluation the new edge
set is diffed against the observer's previous edge set — removed edges are
unsubscribed, added edges subscribed — and the new set is installed
(spec §4.2, §3 "Dependency edge"). -/
def installEdges (s : RState) (o : Nat) (reads : List Nat) : RState :=
  let old := (s.cells o).deps
  let s1 := old.foldl (fun t c => if c ∈ reads then t else unsubscribe t c o) s
  let s2 := reads.foldl (fun t c => if c ∈ old then t else subscribeTo t c o) s1
  modifyCell s2 o (fun n => { n with deps := reads })

/-- Modelled from the spec: `dispose()` removes the effect from every
dependency's subscriber set and marks it disposed (spec §4.4). -/
def dispose (s : RState) (e : Nat) : RState :=
  let s1 := (s.cells e).deps.foldl (fun t c => unsubscribe t c e) s
  modifyCell s1 e (fun n => { n with disposed := true, deps := [] })

/-- Actions interpreted by `step`: expression evaluation, tracked cell read,
cell write, subscriber notification, recomputation of a Derived Cell, and
effect-callback execution. -/
inductive Act
  | expr (e : Expr)
  | read (c : Nat)
  | write (c : Nat) (v : Int)
  | notify (l : List Nat)
  | runComp (cascade : Bool) (c : Nat)
  | cmd (m : Cmd)

/-- Modelled from the spec: the operational core of the missing signal
implementation, as one fuel-indexed interpreter.
Reads register edges with the active tracker frame and pull lazy
recomputation (spec §4.1, §4.3); a recomputation runs the compute body
inside a tracker frame, installs the diffed edge set, caches the value,
clears the dirty flag, and — when reached from change notification — cascades
to its own subscribers when the value changed (spec §4.2, §4.3); a failing
compute caches nothing and leaves the cell dirty so the next read retries
(spec §7); a write replaces the value, advances the version counter and,
only when the new value differs under the default identity equality,
notifies subscribers (spec §4.1); notification marks lazy Derived Cells
dirty and forwards, recomputes eager Derived Cells synchronously, and
enqueues Effects with the Flusher (spec §4.1, §4.3, §4.5); a cell read or
recomputed while already on the evaluation stack is a CyclicDependency
error (spec §4.3, §7). -/
def step : Nat → Act → RState → Except Err Int × RState
  | 0, _, s => (.error .fuel, s)
  | fuel + 1, act, s =>
    match act with
    | .expr (.const n) => (.ok n, s)
    | .expr (.add a b) =>
        match step fuel (.expr a) s with
        | (.ok va, s1) =>
            match step fuel (.expr b) s1 with
            | (.ok vb, s2) => (.ok (va + vb), s2)
            | (.error er, s2) => (.error er, s2)
        | (.error er, s1) => (.error er, s1)
    | .expr .throwE => (.error .thrown, s)
    | .expr (.readCell c) => step fuel (.read c) s
    | .read c =>
        if isComputed (s.cells c).kind ∧ onStack s c then (.error .cyclic, s)
        else
          let s1 := recordRead s c
          if isComputed (s1.cells c).kind ∧ (s1.cells c).dirty then
            match step fuel (.runComp false c) s1 with
            | (.ok _, s2) => (.ok (s2.cells c).value, s2)
            | (.error er, s2) => (.error er, s2)
          else (.ok (s1.cells c).value, s1)
    | .runComp cascade c =>
        if onStack s c then (.error .cyclic, s)
        else
          let s1 := logEval (pushFrame s c) c
          match step fuel (.expr (s1.cells c).compute) s1 with
          | (.ok v, s2) =>
              let s4 := installEdges (popFrame s2).2 c (popFrame s2).1
              let old := (s4.cells c).value
              let s5 := modifyCell s4 c (fun n => { n with value := v, dirty := false })
              if cascade ∧ v ≠ old then step fuel (.notify (s5.cells c).subs) s5
              else (.ok 0, s5)
          | (.error er, s2) =>
              (.error er, modifyCell (popFrame s2).2 c (fun n => { n with dirty := true }))
    | .write c v =>
        if isComputed (s.cells c).kind ∨ isEffect (s.cells c).kind then (.error .thrown, s)
        else
          let old := (s.cells c).value
          let s1 := modifyCell s c (fun n => { n with value := v, version := n.version + 1 })
          if v = old then (.ok 0, s1)
          else step fuel (.notify (s1.cells c).subs) s1
    | .notify [] => (.ok 0, s)
    | .notify (x :: rest) =>
        match (s.cells x).kind with
        | .source => step fuel (.notify rest) s
        | .computedEager =>
            match step fuel (.runComp true x) s with
            | (.ok _, s1) => step fuel (.notify rest) s1
            | (.error er, s1) => (.error er, s1)
        | .computedLazy =>
            if (s.cells x).dirty then step fuel (.notify rest) s
            else
              let s1 := modifyCell s x (fun n => { n with dirty := true })
              match step fuel (.notify (s1.cells x).subs) s1 with
              | (.ok _, s2) => step fuel (.notify rest) s2
              | (.error er, s2) => (.error er, s2)
        | .effectEager =>
            step fuel (.notify rest) (if (s.cells x).disposed then s else enqueue s x)
        | .effectLazy =>
            step fuel (.notify rest)
              (if (s.cells x).disposed ∨ ¬(s.cells x).active then s else enqueue s x)
    | .cmd .skip => (.ok 0, s)
    | .cmd (.seq a b) =>
        match step fuel (.cmd a) s with
        | (.ok _, s1) => step fuel (.cmd b) s1
        | (.error er, s1) => (.error er, s1)
    | .cmd (.readC c) =>
        match step fuel (.read c) s with
        | (.ok _, s1) => (.ok 0, s1)
        | (.error er, s1) => (.error er, s1)
    | .cmd (.writeC c e) =>
        match step fuel (.expr e) s with
        | (.ok v, s1) => step fuel (.write c v) s1
        | (.error er, s1) => (.error er, s1)

/-- Modelled from the spec: one tracked execution of an Effect's callback —
push a tracker frame, log the invocation, run the callback, diff and install
the new edge set on completion (spec §4.2, §4.4). -/
def runEffect (fuel : Nat) (s : RState) (e : Nat) : Except Err Int × RState :=
  if onStack s e then (.error .cyclic, s)
  else
    let s1 := logEval (pushFrame s e) e
    match step fuel (.cmd (s1.cells e).callback) s1 with
    | (.ok _, s2) =>
        (.ok 0, installEdges (popFrame s2).2 e (popFrame s2).1)
    | (.error er, s2) =>
        (.error er, (popFrame s2).2)

/-- Modelled from the spec: one pass of the Flusher's drain loop — executes
each still-undisposed effect of the snapshot, skipping disposed entries at
execution time, and continues draining after a failing effect (spec §4.5,
§7). -/
def flushPass (fuel : Nat) : List Nat → RState → RState
  | [], s => s
  | e :: rest, s =>
      if (s.cells e).disposed then flushPass fuel rest s
      else flushPass fuel rest (runEffect fuel s e).2

/-- Modelled from the spec: `flushNow()` drains the pending set until empty
within the same flush cycle — effects enqueued by writes performed during
effect execution are executed by a further pass — and raises FlushOverflow
when the drain exceeds the iteration ceiling (spec §4.5). -/
def flushNow (fuel : Nat) : Nat → RState → Except Err Unit × RState
  | 0, s => if s.pending = [] then (.ok (), s) else (.error .overflow, s)
  | c + 1, s =>
      match s.pending with
      | [] => (.ok (), s)
      | e :: rest => flushNow fuel c (flushPass fuel (e :: rest) { s with pending := [] })

/-- Projection of the error component of an evaluation result, used to state
success/failure hypotheses decidably. -/
def errOf {a : Type} : Except Err a → Option Err
  | .ok _ => none
  | .error e => some e

/-- Builds the cell arena of a concrete reactive scope from a finite list of
nodes; every id beyond the list is a blank default node. -/
def mkCells (l : List Node) : Nat → Node := fun i => l.getD i {}

/-- Field-stability between two states: evaluation steps never change a
node's kind, compute body, callback, disposed flag or activation flag. -/
def Stable (s s' : RState) : Prop :=
  ∀ i, (s'.cells i).kind = (s.cells i).kind ∧
    (s'.cells i).compute = (s.cells i).compute ∧
    (s'.cells i).callback = (s.cells i).callback ∧
    (s'.cells i).disposed = (s.cells i).disposed ∧
    (s'.cells i).active = (s.cells i).active

/-- Evolution invariant of one interpreter step: fields stay stable, the
tracker stack keeps its observers, and the ghost log only grows. -/
def Evolves (s s' : RState) : Prop :=
  Stable s s' ∧ s'.stack.map Prod.fst = s.stack.map Prod.fst ∧
    ∃ t, s'.log = s.log ++ t

/-- The edge invariant connecting the two directions of the graph: an
observer sits in a cell's subscriber set exactly when the cell sits in the
observer's dependency edge set. -/
def Converse (s : RState) : Prop :=
  ∀ i o : Nat, o ∈ (s.cells i).subs ↔ i ∈ (s.cells o).deps

/-- Syntactic absence of writes in an effect callback body. -/
def noWriteCmd : Cmd → Bool
  | .skip => true
  | .seq a b => noWriteCmd a && noWriteCmd b
  | .readC _ => true
  | .writeC _ _ => false

/-- Actions that can never reach the Flusher's enqueue path: pure
expression evaluation, tracked reads, non-cascading recomputation, and
write-free callbacks. -/
def quiet : Act → Bool
  | .expr _ => true
  | .read _ => true
  | .runComp cascade _ => !cascade
  | .cmd m => noWriteCmd m
  | _ => false

/-- Absence of eager Derived Cells: in such a graph, change notification
only dirties lazy cells and enqueues effects, and never evaluates anything
at change time. -/
def NoEager (s : RState) : Prop := ∀ i, (s.cells i).kind ≠ .computedEager

/-- Diamond graph: Source Cell A (id 0) feeds eager Derived Cells B (1) and
C (2); Effect D (3) reads both B and C. -/
def dA : Node := { kind := .source, value := 1, subs := [1, 2] }

def dB : Node :=
  { kind := .computedEager, value := 1, compute := .readCell 0, deps := [0], subs := [3] }

def dC : Node :=
  { kind := .computedEager, value := 1, compute := .readCell 0, deps := [0], subs := [3] }

def dD : Node := { kind := .effectEager, callback := .seq (.readC 1) (.readC 2), deps := [1, 2] }

def sDiamond : RState := { cells := mkCells [dA, dB, dC, dD] }

/-- The diamond scope immediately after a single write of 2 to A. -/
def sDiamondWritten : RState := (step 30 (.write 0 2) sDiamond).2

/-- An effect (id 1) that writes its own dependency (source id 0) to a new
value on every run, re-enqueueing itself forever. -/
def sSelfWrite : RState :=
  { cells := mkCells [{ kind := .source, value := 0, subs := [1] },
      { kind := .effectEager, callback := .writeC 0 (.add (.readCell 0) (.const 1)),
        deps := [0] }],
    pending := [1] }

/-- A source (id 0) feeding a lazy Derived Cell (id 1). -/
def sLazyPair : RState :=
  { cells := mkCells [{ kind := .source, value := 1, subs := [1] },
      { kind := .computedLazy, value := 1, compute := .readCell 0, deps := [0] }] }

/-- A dirty Derived Cell (id 0) whose compute function throws. -/
def throwNode : Node := { kind := .computedEager, value := 42, dirty := true, compute := .throwE }

def sThrowCell : RState := { cells := mkCells [throwNode] }

/-- A source (id 0) with a subscribed effect (id 1), used for the dispose
and equal-write scenarios. -/
def sDispose : RState :=
  { cells := mkCells [{ kind := .source, value := 0, subs := [1] },
      { kind := .effectEager, callback := .readC 0, deps := [0] }] }

/-- An effect (id 1) that last read cells 0 and 2 but whose callback now
reads only cell 0, used to exercise stale-edge removal. -/
def sStaleEdge : RState :=
  { cells := mkCells [{ kind := .source, value := 5, subs := [1] },
      { kind := .effectEager, callback := .readC 0, deps := [0, 2] },
      { kind := .source, value := 7, subs := [1] }] }

/-- Modelled from the spec: an argument passed to `signalify` — either a
plain value or an already-existing Source Cell handle (src/signals/
signalify.ts is not in the snapshot; spec §4.6). -/
inductive SigValue
  | plain (n : Int)
  | cell (id : Nat)
deriving DecidableEq, Repr

/-- Modelled from the spec: the options bag of `signalify(value,
{ deepObserve?, watchObjectIndex? })` (spec §4.6, §6). -/
structure SignalifyOptions where
  deepObserve : Bool := false
  watchObjectIndex : Bool := false
deriving DecidableEq, Repr

/-- Modelled from the spec: the cell store against which `signalify`
allocates fresh Source Cells. -/
structure SigStore where
  nextId : Nat := 0
  values : Nat → Int

/-- Modelled from the spec: `signalify(value, options)` returns a Source
Cell wrapping `value`; if `value` is already a cell, it is returned
unchanged — idempotent — otherwise a fresh Source Cell is allocated
(spec §4.6; src/signals/signalify.ts is not in the snapshot). -/
def signalify (v : SigValue) (opts : SignalifyOptions) (st : SigStore) : Nat × SigStore :=
  match v with
  | .cell id => (id, st)
  | .plain n =>
      (st.nextId,
        { nextId := st.nextId + 1, values := Function.update st.values st.nextId n })

/-- Embedded from src/tui.ts: the `Rectangle` record of src/types.ts. -/
structure Rectangle where
  column : Int
  row : Int
  width : Int
  height : Int
deriving DecidableEq, Repr

/-- Embedded from src/stdio: terminal size in columns and rows. -/
structure ConsoleSize where
  columns : Int
  rows : Int
deriving DecidableEq, Repr

/-- A heap of Rectangle objects indexed by address, modelling JavaScript
reference identity of the mutable `tuiRectangle` object captured by the
`Tui` constructor's Computed. -/
def RectHeap : Type := Nat → Rectangle

/-- The fixed address of the single `tuiRectangle` object allocated by the
`Tui` constructor. -/
def tuiRectAddr : Nat := 0

/-- Embedded from src/tui.ts (Tui constructor): the compute function of
`this.rectangle` reads the canvas size, mutates the captured
`tuiRectangle` object's width and height in place, and returns that same
object (its reference). -/
def tuiRectangleCompute (h : RectHeap) (size : ConsoleSize) : RectHeap × Nat :=
  (Function.update h tuiRectAddr
    { h tuiRectAddr with width := size.columns, height := size.rows }, tuiRectAddr)

/-- Embedded from src/tui.ts (Tui constructor): the initial
`tuiRectangle = { column: 0, row: 0, width: 0, height: 0 }`. -/
def tuiRectangleInitHeap : RectHeap :=
  fun _ => { column := 0, row := 0, width := 0, height := 0 }

/-- A sequence of evaluations of the rectangle Computed under changing
terminal sizes. -/
def tuiRectangleEvalSeq (sizes : List ConsoleSize) (h : RectHeap) : RectHeap :=
  sizes.foldl (fun hh sz => (tuiRectangleCompute hh sz).1) h

/-- Embedded from src/components/slider.ts: the arrow keys the keyPress
handler reacts to, plus a stand-in for any other key. -/
inductive SliderKey
  | up
  | down
  | left
  | right
  | other
deriving DecidableEq, Repr

/-- Embedded from src/input: the fields of a keyPress event the Slider
handler consumes. -/
structure KeyPressEvent where
  key : SliderKey
  ctrl : Bool
  shift : Bool
  meta : Bool
deriving DecidableEq, Repr

/-- Embedded from src/input: the fields of a mousePress event the Slider
handler consumes. -/
structure MousePressEvent where
  drag : Bool
  movementX : Int
  movementY : Int
  ctrl : Bool
  shift : Bool
  meta : Bool
deriving DecidableEq, Repr

/-- Embedded from src/components/slider.ts: the peeked signal values a
Slider handler works with (min, max, step, value, orientation). -/
structure SliderData where
  min : Int
  max : Int
  step : Int
  value : Int
  horizontal : Bool
deriving DecidableEq, Repr

/-- Modelled from the spec: `clamp` from src/utils/numbers.ts, which is not
in the snapshot — the Slider handlers clamp the stepped value into
[min, max] before writing it. -/
def clamp (n lo hi : Int) : Int := max (min n hi) lo

/-- Embedded from src/components/slider.ts (constructor, keyPress
handler): with a ctrl/shift/meta modifier the handler returns without
writing; an up/right arrow writes `clamp(value + step, min, max)`, a
down/left arrow writes `clamp(value - step, min, max)`; other keys write
nothing. -/
def sliderKeyPress (st : SliderData) (e : KeyPressEvent) : Option Int :=
  if e.ctrl || e.shift || e.meta then none
  else
    match e.key with
    | .up | .right => some (clamp (st.value + st.step) st.min st.max)
    | .down | .left => some (clamp (st.value - st.step) st.min st.max)
    | .other => none

/-- Embedded from src/components/slider.ts (constructor, mousePress
handler): without drag, or with a modifier, nothing is written; otherwise
the movement along the slider's orientation, scaled by step, is added to
the value and clamped. -/
def sliderMousePress (st : SliderData) (e : MousePressEvent) : Option Int :=
  if !e.drag || e.ctrl || e.shift || e.meta then none
  else
    some (clamp (st.value + (if st.horizontal then e.movementX else e.movementY) * st.step)
      st.min st.max)

/-- Embedded from src/components/slider.ts (constructor, mouseScroll
handler): writes `clamp(value + scroll * step, min, max)`. -/
def sliderMouseScroll (st : SliderData) (scroll : Int) : Option Int :=
  some (clamp (st.value + scroll * st.step) st.min st.max)

theorem cells_setCell (s : RState) (i : Nat) (n : Node) (j : Nat) :
    (setCell s i n).cells j = if j = i then n else s.cells j := by
  simp [setCell, Function.update_apply]

theorem cells_modifyCell (s : RState) (i : Nat) (f : Node → Node) (j : Nat) :
    (modifyCell s i f).cells j = if j = i then f (s.cells i) else s.cells j := by
  simp [modifyCell, cells_setCell]

theorem evolvesRfl (s : RState) : Evolves s s :=
  ⟨fun _ => ⟨rfl, rfl, rfl, rfl, rfl⟩, rfl, [], by simp⟩

theorem evolvesTrans {s1 s2 s3 : RState} (h1 : Evolves s1 s2) (h2 : Evolves s2 s3) :
    Evolves s1 s3 := by
  obtain ⟨hf1, hs1, t1, hl1⟩ := h1
  obtain ⟨hf2, hs2, t2, hl2⟩ := h2
  refine ⟨fun i => ?_, hs2.trans hs1, t1 ++ t2, by simp [hl2, hl1]⟩
  obtain ⟨a1, b1, c1, d1, e1⟩ := hf1 i
  obtain ⟨a2, b2, c2, d2, e2⟩ := hf2 i
  exact ⟨a2.trans a1, b2.trans b1, c2.trans c1, d2.trans d1, e2.trans e1⟩

theorem evolves_of_cells_eq {s s' : RState} (hc : s'.cells = s.cells)
    (hs : s'.stack.map Prod.fst = s.stack.map Prod.fst)
    (hl : ∃ t, s'.log = s.log ++ t) : Evolves s s' :=
  ⟨fun i => by simp [hc], hs, hl⟩

theorem evolves_modifyCell (s : RState) (i : Nat) (f : Node → Node)
    (hf : ∀ n, (f n).kind = n.kind ∧ (f n).compute = n.compute ∧
      (f n).callback = n.callback ∧ (f n).disposed = n.disposed ∧
      (f n).active = n.active) : Evolves s (modifyCell s i f) := by
  refine ⟨fun j => ?_, rfl, [], by simp [modifyCell, setCell]⟩
  rw [cells_modifyCell]
  by_cases h : j = i
  · simp only [h, if_pos rfl]
    exact hf (s.cells i)
  · simp [h]

theorem evolves_unsubscribe (s : RState) (c o : Nat) : Evolves s (unsubscribe s c o) :=
  evolves_modifyCell s c _ (fun n => by simp)

theorem evolves_subscribeTo (s : RState) (c o : Nat) : Evolves s (subscribeTo s c o) := by
  refine evolves_modifyCell s c _ (fun n => ?_)
  by_cases h : o ∈ n.subs <;> simp [h]

theorem evolves_foldl {g : RState → Nat → RState}
    (hg : ∀ t d, Evolves t (g t d)) :
    ∀ (l : List Nat) (s : RState), Evolves s (l.foldl g s) := by
  intro l
  induction l with
  | nil => intro s; exact evolvesRfl s
  | cons d rest ih => intro s; exact evolvesTrans (hg s d) (ih (g s d))

theorem evolves_installEdges (s : RState) (o : Nat) (reads : List Nat) :
    Evolves s (installEdges s o reads) := by
  unfold installEdges
  refine evolvesTrans (evolvesTrans
    (evolves_foldl (fun t d => ?_) _ s) (evolves_foldl (fun t d => ?_) _ _))
    (evolves_modifyCell _ o _ (fun n => by simp))
  · by_cases h : d ∈ reads
    · simp only [h, if_pos rfl]; exact evolvesRfl t
    · rw [if_neg h]; exact evolves_unsubscribe t d o
  · by_cases h : d ∈ (s.cells o).deps
    · simp only [h, if_pos rfl]; exact evolvesRfl t
    · simp only [h]; simpa using evolves_subscribeTo t d o

theorem evolves_recordRead (s : RState) (c : Nat) : Evolves s (recordRead s c) := by
  unfold recordRead
  match h : s.stack with
  | [] => exact evolvesRfl s
  | (o, reads) :: rest =>
      refine evolves_of_cells_eq rfl ?_ ⟨[], by simp⟩
      simp [h]

theorem evolves_enqueue (s : RState) (e : Nat) : Evolves s (enqueue s e) := by
  unfold enqueue
  by_cases h : e ∈ s.pending
  · simp only [h, if_pos rfl]; exact evolvesRfl s
  · rw [if_neg h]
    exact evolves_of_cells_eq rfl rfl ⟨[], by simp⟩

theorem cells_recordRead (s : RState) (c : Nat) : (recordRead s c).cells = s.cells := by
  cases h : s.stack with
  | nil => simp [recordRead, h]
  | cons fr rest => cases fr; simp [recordRead, h]

theorem stack_recordRead (s : RState) (c : Nat) :
    (recordRead s c).stack.map Prod.fst = s.stack.map Prod.fst := by
  cases h : s.stack with
  | nil => simp [recordRead, h]
  | cons fr rest => cases fr; simp [recordRead, h]

theorem log_recordRead (s : RState) (c : Nat) : (recordRead s c).log = s.log := by
  cases h : s.stack with
  | nil => simp [recordRead, h]
  | cons fr rest => cases fr; simp [recordRead, h]

theorem pending_recordRead (s : RState) (c : Nat) : (recordRead s c).pending = s.pending := by
  cases h : s.stack with
  | nil => simp [recordRead, h]
  | cons fr rest => cases fr; simp [recordRead, h]

theorem cells_popFrame (s : RState) : (popFrame s).2.cells = s.cells := by
  cases h : s.stack with
  | nil => simp [popFrame, h]
  | cons fr rest => cases fr; simp [popFrame, h]

theorem stack_popFrame (s : RState) : (popFrame s).2.stack = s.stack.tail := by
  cases h : s.stack with
  | nil => simp [popFrame, h]
  | cons fr rest => cases fr; simp [popFrame, h]

theorem log_popFrame (s : RState) : (popFrame s).2.log = s.log := by
  cases h : s.stack with
  | nil => simp [popFrame, h]
  | cons fr rest => cases fr; simp [popFrame, h]

theorem pending_popFrame (s : RState) : (popFrame s).2.pending = s.pending := by
  cases h : s.stack with
  | nil => simp [popFrame, h]
  | cons fr rest => cases fr; simp [popFrame, h]

/-- A tracked evaluation frame — push, log, run, pop — evolves the outer
state whenever the inner run evolves the framed state. -/
theorem evolves_frame {s s2 : RState} {c : Nat}
    (E : Evolves (logEval (pushFrame s c) c) s2) : Evolves s (popFrame s2).2 := by
  obtain ⟨hf, hs, t, hl⟩ := E
  have hshape : s2.stack.map Prod.fst = c :: s.stack.map Prod.fst := by
    simpa [logEval, pushFrame] using hs
  refine ⟨fun i => by rw [cells_popFrame]; exact hf i, ?_, [c] ++ t, ?_⟩
  · rw [stack_popFrame]
    cases hb : s2.stack with
    | nil => rw [hb] at hshape; simp at hshape
    | cons hd tl =>
        rw [hb] at hshape
        simp only [List.map_cons, List.cons.injEq] at hshape
        simpa using hshape.2
  · rw [log_popFrame, hl]
    simp [logEval, pushFrame]

theorem step_evolves : ∀ (fuel : Nat) (act : Act) (s : RState),
    Evolves s (step fuel act s).2 := by
  intro fuel
  induction fuel with
  | zero => intro act s; exact evolvesRfl s
  | succ f ih =>
    intro act s
    cases act with
    | expr e =>
      cases e with
      | const n => exact evolvesRfl s
      | throwE => exact evolvesRfl s
      | readCell c => simp only [step]; exact ih (.read c) s
      | add a b =>
          simp only [step]
          split
          next va s1 h1 =>
            have e1 : Evolves s s1 := by have := ih (.expr a) s; rwa [h1] at this
            split
            next vb s2 h2 =>
              have e2 : Evolves s1 s2 := by have := ih (.expr b) s1; rwa [h2] at this
              exact evolvesTrans e1 e2
            next er s2 h2 =>
              have e2 : Evolves s1 s2 := by have := ih (.expr b) s1; rwa [h2] at this
              exact evolvesTrans e1 e2
          next er s1 h1 =>
            have e1 : Evolves s s1 := by have := ih (.expr a) s; rwa [h1] at this
            exact e1
    | read c =>
        simp only [step]
        split
        next hcond => exact evolvesRfl s
        next hcond =>
          have er0 : Evolves s (recordRead s c) :=
            evolves_of_cells_eq (cells_recordRead s c) (stack_recordRead s c)
              ⟨[], by rw [log_recordRead]; simp⟩
          split
          next hdirty =>
            split
            next v0 s2 h1 =>
              have e1 : Evolves (recordRead s c) s2 := by
                have := ih (.runComp false c) (recordRead s c); rwa [h1] at this
              exact evolvesTrans er0 e1
            next er1 s2 h1 =>
              have e1 : Evolves (recordRead s c) s2 := by
                have := ih (.runComp false c) (recordRead s c); rwa [h1] at this
              exact evolvesTrans er0 e1
          next hdirty => exact er0
    | runComp cascade c =>
        simp only [step]
        split
        next hstk => exact evolvesRfl s
        next hstk =>
          split
          next v0 s2 h1 =>
            have e1 : Evolves (logEval (pushFrame s c) c) s2 := by
              have := ih (.expr ((logEval (pushFrame s c) c).cells c).compute)
                (logEval (pushFrame s c) c)
              rwa [h1] at this
            have e4 : Evolves s (modifyCell (installEdges (popFrame s2).2 c (popFrame s2).1) c
                (fun n => { n with value := v0, dirty := false })) :=
              evolvesTrans (evolves_frame e1) (evolvesTrans (evolves_installEdges _ c _)
                (evolves_modifyCell _ c _ (fun n => by simp)))
            split
            next hcas => exact evolvesTrans e4 (ih (.notify _) _)
            next hcas => exact e4
          next er1 s2 h1 =>
            have e1 : Evolves (logEval (pushFrame s c) c) s2 := by
              have := ih (.expr ((logEval (pushFrame s c) c).cells c).compute)
                (logEval (pushFrame s c) c)
              rwa [h1] at this
            show Evolves s (modifyCell (popFrame s2).2 c (fun n => { n with dirty := true }))
            exact evolvesTrans (evolves_frame e1) (evolves_modifyCell _ c _ (fun n => by simp))
    | write c v =>
        simp only [step]
        split
        next hk => exact evolvesRfl s
        next hk =>
          have em : Evolves s (modifyCell s c
              (fun n => { n with value := v, version := n.version + 1 })) :=
            evolves_modifyCell s c _ (fun n => by simp)
          split
          next he => exact em
          next he => exact evolvesTrans em (ih (.notify _) _)
    | notify l =>
        cases l with
        | nil => exact evolvesRfl s
        | cons x rest =>
            simp only [step]
            split
            next hk => exact ih (.notify rest) s
            next hk =>
              split
              next v0 s1 h1 =>
                have e1 : Evolves s s1 := by have := ih (.runComp true x) s; rwa [h1] at this
                exact evolvesTrans e1 (ih (.notify rest) s1)
              next er1 s1 h1 =>
                have e1 : Evolves s s1 := by have := ih (.runComp true x) s; rwa [h1] at this
                exact e1
            next hk =>
              split
              next hd => exact ih (.notify rest) s
              next hd =>
                have em : Evolves s (modifyCell s x (fun n => { n with dirty := true })) :=
                  evolves_modifyCell s x _ (fun n => by simp)
                split
                next v0 s1 h1 =>
                  have e1 : Evolves (modifyCell s x (fun n => { n with dirty := true })) s1 := by
                    have := ih (.notify ((modifyCell s x
                        (fun n => { n with dirty := true })).cells x).subs)
                      (modifyCell s x (fun n => { n with dirty := true }))
                    rwa [h1] at this
                  exact evolvesTrans (evolvesTrans em e1) (ih (.notify rest) s1)
                next er1 s1 h1 =>
                  have e1 : Evolves (modifyCell s x (fun n => { n with dirty := true })) s1 := by
                    have := ih (.notify ((modifyCell s x
                        (fun n => { n with dirty := true })).cells x).subs)
                      (modifyCell s x (fun n => { n with dirty := true }))
                    rwa [h1] at this
                  exact evolvesTrans em e1
            next hk =>
              split
              next hdisp => exact ih (.notify rest) s
              next hdisp => exact evolvesTrans (evolves_enqueue s x) (ih (.notify rest) (enqueue s x))
            next hk =>
              split
              next hdisp => exact ih (.notify rest) s
              next hdisp => exact evolvesTrans (evolves_enqueue s x) (ih (.notify rest) (enqueue s x))
    | cmd m =>
      cases m with
      | skip => exact evolvesRfl s
      | seq a b =>
          simp only [step]
          split
          next v0 s1 h1 =>
            have e1 : Evolves s s1 := by have := ih (.cmd a) s; rwa [h1] at this
            exact evolvesTrans e1 (ih (.cmd b) s1)
          next er s1 h1 =>
            have e1 : Evolves s s1 := by have := ih (.cmd a) s; rwa [h1] at this
            exact e1
      | readC c =>
          simp only [step]
          split
          next v0 s1 h1 =>
            have e1 : Evolves s s1 := by have := ih (.read c) s; rwa [h1] at this
            exact e1
          next er s1 h1 =>
            have e1 : Evolves s s1 := by have := ih (.read c) s; rwa [h1] at this
            exact e1
      | writeC c e =>
          simp only [step]
          split
          next v0 s1 h1 =>
            have e1 : Evolves s s1 := by have := ih (.expr e) s; rwa [h1] at this
            exact evolvesTrans e1 (ih (.write c v0) s1)
          next er s1 h1 =>
            have e1 : Evolves s s1 := by have := ih (.expr e) s; rwa [h1] at this
            exact e1

theorem runEffect_evolves (fuel : Nat) (s : RState) (e : Nat) :
    Evolves s (runEffect fuel s e).2 := by
  simp only [runEffect]
  split
  next h => exact evolvesRfl s
  next h =>
    split
    next v0 s2 h1 =>
      have e1 : Evolves (logEval (pushFrame s e) e) s2 := by
        have := step_evolves fuel (.cmd ((logEval (pushFrame s e) e).cells e).callback)
          (logEval (pushFrame s e) e)
        rwa [h1] at this
      exact evolvesTrans (evolves_frame e1) (evolves_installEdges _ e _)
    next er s2 h1 =>
      have e1 : Evolves (logEval (pushFrame s e) e) s2 := by
        have := step_evolves fuel (.cmd ((logEval (pushFrame s e) e).cells e).callback)
          (logEval (pushFrame s e) e)
        rwa [h1] at this
      exact evolves_frame e1

theorem flushPass_evolves (fuel : Nat) :
    ∀ (l : List Nat) (s : RState), Evolves s (flushPass fuel l s) := by
  intro l
  induction l with
  | nil => intro s; exact evolvesRfl s
  | cons e rest ih =>
      intro s
      simp only [flushPass]
      split
      next h => exact ih s
      next h => exact evolvesTrans (runEffect_evolves fuel s e) (ih _)

theorem flushNow_evolves (fuel : Nat) :
    ∀ (ceil : Nat) (s : RState), Evolves s (flushNow fuel ceil s).2 := by
  intro ceil
  induction ceil with
  | zero =>
      intro s
      simp only [flushNow]
      split
      next h => exact evolvesRfl s
      next h => exact evolvesRfl s
  | succ c ih =>
      intro s
      simp only [flushNow]
      split
      next h => exact evolvesRfl s
      next e rest h =>
        refine evolvesTrans ?_ (ih (flushPass fuel (e :: rest) { s with pending := [] }))
        have : Evolves s ({ s with pending := [] } : RState) :=
          evolves_of_cells_eq rfl rfl ⟨[], by simp⟩
        exact evolvesTrans this (flushPass_evolves fuel (e :: rest) _)

theorem mem_subs_unsubscribe {s : RState} {c o i o' : Nat} :
    o' ∈ ((unsubscribe s c o).cells i).subs ↔
      (o' ∈ (s.cells i).subs ∧ ¬(i = c ∧ o' = o)) := by
  rw [unsubscribe, cells_modifyCell]
  by_cases h : i = c
  · subst h
    simp [List.mem_filter]
  · simp [h]

theorem deps_unsubscribe (s : RState) (c o i : Nat) :
    ((unsubscribe s c o).cells i).deps = (s.cells i).deps := by
  rw [unsubscribe, cells_modifyCell]
  by_cases h : i = c <;> simp [h]

theorem mem_subs_subscribeTo {s : RState} {c o i o' : Nat} :
    o' ∈ ((subscribeTo s c o).cells i).subs ↔
      (o' ∈ (s.cells i).subs ∨ (i = c ∧ o' = o)) := by
  rw [subscribeTo, cells_modifyCell]
  by_cases h : i = c
  · subst h
    by_cases hm : o ∈ (s.cells i).subs
    · simp only [if_pos rfl, hm, if_pos]
      constructor
      · intro hx; exact Or.inl hx
      · rintro (hx | ⟨-, rfl⟩) <;> [exact hx; exact hm]
    · simp [hm]
  · simp [h]

theorem deps_subscribeTo (s : RState) (c o i : Nat) :
    ((subscribeTo s c o).cells i).deps = (s.cells i).deps := by
  rw [subscribeTo, cells_modifyCell]
  by_cases h : i = c
  · subst h
    by_cases hm : o ∈ (s.cells i).subs <;> simp [hm]
  · simp [h]

theorem deps_foldl {g : RState → Nat → RState}
    (hg : ∀ t d i, ((g t d).cells i).deps = (t.cells i).deps) :
    ∀ (l : List Nat) (s : RState) (i : Nat),
      ((l.foldl g s).cells i).deps = (s.cells i).deps := by
  intro l
  induction l with
  | nil => intro s i; rfl
  | cons d rest ih => intro s i; simp only [List.foldl_cons]; rw [ih, hg]

theorem mem_subs_unsub_fold (reads : List Nat) (o : Nat) :
    ∀ (l : List Nat) (s : RState) (i o' : Nat),
    o' ∈ ((l.foldl (fun t d => if d ∈ reads then t else unsubscribe t d o) s).cells i).subs ↔
      (o' ∈ (s.cells i).subs ∧ ¬(o' = o ∧ i ∈ l ∧ i ∉ reads)) := by
  intro l
  induction l with
  | nil => intro s i o'; simp
  | cons d rest ih =>
      intro s i o'
      simp only [List.foldl_cons]
      by_cases hd : d ∈ reads
      · rw [if_pos hd, ih]
        simp only [List.mem_cons]
        by_cases hi : i = d
        · subst hi; simp only [hd]; tauto
        · simp only [hi]; tauto
      · rw [if_neg hd, ih]
        simp only [mem_subs_unsubscribe, List.mem_cons]
        by_cases hi : i = d
        · subst hi; simp only [hd]; tauto
        · simp only [hi]; tauto

theorem mem_subs_sub_fold (old : List Nat) (o : Nat) :
    ∀ (l : List Nat) (s : RState) (i o' : Nat),
    o' ∈ ((l.foldl (fun t d => if d ∈ old then t else subscribeTo t d o) s).cells i).subs ↔
      (o' ∈ (s.cells i).subs ∨ (o' = o ∧ i ∈ l ∧ i ∉ old)) := by
  intro l
  induction l with
  | nil => intro s i o'; simp
  | cons d rest ih =>
      intro s i o'
      simp only [List.foldl_cons]
      by_cases hd : d ∈ old
      · rw [if_pos hd, ih]
        simp only [List.mem_cons]
        by_cases hi : i = d
        · subst hi; simp only [hd]; tauto
        · simp only [hi]; tauto
      · rw [if_neg hd, ih]
        simp only [mem_subs_subscribeTo, List.mem_cons]
        by_cases hi : i = d
        · subst hi; simp only [hd]; tauto
        · simp only [hi]; tauto

theorem deps_unsub_fold (reads : List Nat) (o : Nat) (l : List Nat) (s : RState) (i : Nat) :
    ((l.foldl (fun t d => if d ∈ reads then t else unsubscribe t d o) s).cells i).deps =
      (s.cells i).deps :=
  deps_foldl (fun t d j => by
    by_cases hd : d ∈ reads
    · simp [hd]
    · simp [hd, deps_unsubscribe]) l s i

theorem deps_sub_fold (old : List Nat) (o : Nat) (l : List Nat) (s : RState) (i : Nat) :
    ((l.foldl (fun t d => if d ∈ old then t else subscribeTo t d o) s).cells i).deps =
      (s.cells i).deps :=
  deps_foldl (fun t d j => by
    by_cases hd : d ∈ old
    · simp [hd]
    · simp [hd, deps_subscribeTo]) l s i

theorem deps_installEdges (s : RState) (o : Nat) (reads : List Nat) (i : Nat) :
    ((installEdges s o reads).cells i).deps = if i = o then reads else (s.cells i).deps := by
  simp only [installEdges, cells_modifyCell]
  by_cases h : i = o
  · simp [h]
  · rw [if_neg h, if_neg h, deps_sub_fold, deps_unsub_fold]

theorem mem_subs_installEdges {s : RState} (hC : Converse s) (o : Nat) (reads : List Nat)
    (i o' : Nat) :
    o' ∈ ((installEdges s o reads).cells i).subs ↔
      (if o' = o then i ∈ reads else o' ∈ (s.cells i).subs) := by
  have hio : o' ∈ (s.cells i).subs ↔ i ∈ (s.cells o').deps := hC i o'
  have hoo : o ∈ (s.cells i).subs ↔ i ∈ (s.cells o).deps := hC i o
  simp only [installEdges, cells_modifyCell]
  by_cases h : i = o
  · subst h
    rw [if_pos rfl]
    dsimp only
    rw [mem_subs_sub_fold, mem_subs_unsub_fold]
    by_cases ho : o' = i
    · subst ho
      rw [if_pos rfl]
      tauto
    · rw [if_neg ho]
      tauto
  · rw [if_neg h]
    rw [mem_subs_sub_fold, mem_subs_unsub_fold]
    by_cases ho : o' = o
    · subst ho
      rw [if_pos rfl]
      tauto
    · rw [if_neg ho]
      tauto

theorem converse_installEdges {s : RState} (hC : Converse s) (o : Nat) (reads : List Nat) :
    Converse (installEdges s o reads) := by
  intro i o'
  rw [mem_subs_installEdges hC o reads i o', deps_installEdges]
  by_cases ho : o' = o
  · subst ho; simp
  · simp [ho, hC i o']

/-- Converse is unaffected by state changes that keep every cell's subs and
deps. -/
theorem converse_of_edges_eq {s s' : RState}
    (h : ∀ i, (s'.cells i).subs = (s.cells i).subs ∧ (s'.cells i).deps = (s.cells i).deps)
    (hC : Converse s) : Converse s' := by
  intro i o
  rw [(h i).1, (h o).2]
  exact hC i o

theorem converse_cells_eq {s s' : RState} (h : s'.cells = s.cells) (hC : Converse s) :
    Converse s' := converse_of_edges_eq (fun i => by rw [h]; exact ⟨rfl, rfl⟩) hC

theorem converse_modifyCell {s : RState} (hC : Converse s) (i : Nat) (f : Node → Node)
    (hf : ∀ n, (f n).subs = n.subs ∧ (f n).deps = n.deps) : Converse (modifyCell s i f) := by
  refine converse_of_edges_eq (fun j => ?_) hC
  rw [cells_modifyCell]
  by_cases h : j = i
  · subst h; simp only [if_pos rfl]; exact hf (s.cells j)
  · simp [h]

theorem step_converse : ∀ (fuel : Nat) (act : Act) (s : RState),
    Converse s → Converse (step fuel act s).2 := by
  intro fuel
  induction fuel with
  | zero => intro act s hC; exact hC
  | succ f ih =>
    intro act s hC
    cases act with
    | expr e =>
      cases e with
      | const n => exact hC
      | throwE => exact hC
      | readCell c => simp only [step]; exact ih (.read c) s hC
      | add a b =>
          simp only [step]
          split
          next va s1 h1 =>
            have c1 : Converse s1 := by have := ih (.expr a) s hC; rwa [h1] at this
            split
            next vb s2 h2 =>
              have c2 : Converse s2 := by have := ih (.expr b) s1 c1; rwa [h2] at this
              exact c2
            next er s2 h2 =>
              have c2 : Converse s2 := by have := ih (.expr b) s1 c1; rwa [h2] at this
              exact c2
          next er s1 h1 =>
            have c1 : Converse s1 := by have := ih (.expr a) s hC; rwa [h1] at this
            exact c1
    | read c =>
        simp only [step]
        split
        next hcond => exact hC
        next hcond =>
          have cr : Converse (recordRead s c) := converse_cells_eq (cells_recordRead s c) hC
          split
          next hdirty =>
            split
            next v0 s2 h1 =>
              have c1 : Converse s2 := by
                have := ih (.runComp false c) (recordRead s c) cr; rwa [h1] at this
              exact c1
            next er1 s2 h1 =>
              have c1 : Converse s2 := by
                have := ih (.runComp false c) (recordRead s c) cr; rwa [h1] at this
              exact c1
          next hdirty => exact cr
    | runComp cascade c =>
        simp only [step]
        split
        next hstk => exact hC
        next hstk =>
          have cp : Converse (logEval (pushFrame s c) c) := converse_cells_eq rfl hC
          split
          next v0 s2 h1 =>
            have c1 : Converse s2 := by
              have := ih (.expr ((logEval (pushFrame s c) c).cells c).compute)
                (logEval (pushFrame s c) c) cp
              rwa [h1] at this
            have c2 : Converse (popFrame s2).2 := converse_cells_eq (cells_popFrame s2) c1
            have c4 : Converse (modifyCell (installEdges (popFrame s2).2 c (popFrame s2).1) c
                (fun n => { n with value := v0, dirty := false })) :=
              converse_modifyCell (converse_installEdges c2 c (popFrame s2).1) c _
                (fun n => ⟨rfl, rfl⟩)
            split
            next hcas => exact ih (.notify _) _ c4
            next hcas => exact c4
          next er1 s2 h1 =>
            have c1 : Converse s2 := by
              have := ih (.expr ((logEval (pushFrame s c) c).cells c).compute)
                (logEval (pushFrame s c) c) cp
              rwa [h1] at this
            have c2 : Converse (popFrame s2).2 := converse_cells_eq (cells_popFrame s2) c1
            show Converse (modifyCell (popFrame s2).2 c (fun n => { n with dirty := true }))
            exact converse_modifyCell c2 c _ (fun n => ⟨rfl, rfl⟩)
    | write c v =>
        simp only [step]
        split
        next hk => exact hC
        next hk =>
          have cm : Converse (modifyCell s c
              (fun n => { n with value := v, version := n.version + 1 })) :=
            converse_modifyCell hC c _ (fun n => ⟨rfl, rfl⟩)
          split
          next he => exact cm
          next he => exact ih (.notify _) _ cm
    | notify l =>
        cases l with
        | nil => exact hC
        | cons x rest =>
            simp only [step]
            split
            next hk => exact ih (.notify rest) s hC
            next hk =>
              split
              next v0 s1 h1 =>
                have c1 : Converse s1 := by have := ih (.runComp true x) s hC; rwa [h1] at this
                exact ih (.notify rest) s1 c1
              next er1 s1 h1 =>
                have c1 : Converse s1 := by have := ih (.runComp true x) s hC; rwa [h1] at this
                exact c1
            next hk =>
              split
              next hd => exact ih (.notify rest) s hC
              next hd =>
                have cm : Converse (modifyCell s x (fun n => { n with dirty := true })) :=
                  converse_modifyCell hC x _ (fun n => ⟨rfl, rfl⟩)
                split
                next v0 s1 h1 =>
                  have c1 : Converse s1 := by
                    have := ih (.notify ((modifyCell s x
                        (fun n => { n with dirty := true })).cells x).subs)
                      (modifyCell s x (fun n => { n with dirty := true })) cm
                    rwa [h1] at this
                  exact ih (.notify rest) s1 c1
                next er1 s1 h1 =>
                  have c1 : Converse s1 := by
                    have := ih (.notify ((modifyCell s x
                        (fun n => { n with dirty := true })).cells x).subs)
                      (modifyCell s x (fun n => { n with dirty := true })) cm
                    rwa [h1] at this
                  exact c1
            next hk =>
              split
              next hdisp => exact ih (.notify rest) s hC
              next hdisp =>
                exact ih (.notify rest) (enqueue s x) (converse_cells_eq (by
                  by_cases h : x ∈ s.pending <;> simp [enqueue, h]) hC)
            next hk =>
              split
              next hdisp => exact ih (.notify rest) s hC
              next hdisp =>
                exact ih (.notify rest) (enqueue s x) (converse_cells_eq (by
                  by_cases h : x ∈ s.pending <;> simp [enqueue, h]) hC)
    | cmd m =>
      cases m with
      | skip => exact hC
      | seq a b =>
          simp only [step]
          split
          next v0 s1 h1 =>
            have c1 : Converse s1 := by have := ih (.cmd a) s hC; rwa [h1] at this
            exact ih (.cmd b) s1 c1
          next er s1 h1 =>
            have c1 : Converse s1 := by have := ih (.cmd a) s hC; rwa [h1] at this
            exact c1
      | readC c =>
          simp only [step]
          split
          next v0 s1 h1 =>
            have c1 : Converse s1 := by have := ih (.read c) s hC; rwa [h1] at this
            exact c1
          next er s1 h1 =>
            have c1 : Converse s1 := by have := ih (.read c) s hC; rwa [h1] at this
            exact c1
      | writeC c e =>
          simp only [step]
          split
          next v0 s1 h1 =>
            have c1 : Converse s1 := by have := ih (.expr e) s hC; rwa [h1] at this
            exact ih (.write c v0) s1 c1
          next er s1 h1 =>
            have c1 : Converse s1 := by have := ih (.expr e) s hC; rwa [h1] at this
            exact c1

theorem runEffect_converse (fuel : Nat) (s : RState) (e : Nat) (hC : Converse s) :
    Converse (runEffect fuel s e).2 := by
  simp only [runEffect]
  split
  next h => exact hC
  next h =>
    have cp : Converse (logEval (pushFrame s e) e) := converse_cells_eq rfl hC
    split
    next v0 s2 h1 =>
      have c1 : Converse s2 := by
        have := step_converse fuel (.cmd ((logEval (pushFrame s e) e).cells e).callback)
          (logEval (pushFrame s e) e) cp
        rwa [h1] at this
      exact converse_installEdges (converse_cells_eq (cells_popFrame s2) c1) e (popFrame s2).1
    next er s2 h1 =>
      have c1 : Converse s2 := by
        have := step_converse fuel (.cmd ((logEval (pushFrame s e) e).cells e).callback)
          (logEval (pushFrame s e) e) cp
        rwa [h1] at this
      exact converse_cells_eq (cells_popFrame s2) c1

theorem flushPass_converse (fuel : Nat) :
    ∀ (l : List Nat) (s : RState), Converse s → Converse (flushPass fuel l s) := by
  intro l
  induction l with
  | nil => intro s hC; exact hC
  | cons e rest ih =>
      intro s hC
      simp only [flushPass]
      split
      next h => exact ih s hC
      next h => exact ih _ (runEffect_converse fuel s e hC)

theorem flushNow_converse (fuel : Nat) :
    ∀ (ceil : Nat) (s : RState), Converse s → Converse (flushNow fuel ceil s).2 := by
  intro ceil
  induction ceil with
  | zero =>
      intro s hC
      simp only [flushNow]
      split
      next h => exact hC
      next h => exact hC
  | succ c ih =>
      intro s hC
      simp only [flushNow]
      split
      next h => exact hC
      next e rest h =>
        refine ih _ (flushPass_converse fuel (e :: rest) _ (converse_cells_eq rfl hC))

theorem step_kind (fuel : Nat) (act : Act) (s : RState) (i : Nat) :
    ((step fuel act s).2.cells i).kind = (s.cells i).kind :=
  ((step_evolves fuel act s).1 i).1

theorem step_callback_eq (fuel : Nat) (act : Act) (s : RState) (i : Nat) :
    ((step fuel act s).2.cells i).callback = (s.cells i).callback :=
  ((step_evolves fuel act s).1 i).2.2.1

theorem step_disposed (fuel : Nat) (act : Act) (s : RState) (i : Nat) :
    ((step fuel act s).2.cells i).disposed = (s.cells i).disposed :=
  ((step_evolves fuel act s).1 i).2.2.2.1

theorem step_stackShape (fuel : Nat) (act : Act) (s : RState) :
    (step fuel act s).2.stack.map Prod.fst = s.stack.map Prod.fst :=
  (step_evolves fuel act s).2.1

theorem any_fst_eq (l : List (Nat × List Nat)) (c : Nat) :
    (l.any fun f => decide (f.1 = c)) = ((l.map Prod.fst).any fun x => decide (x = c)) := by
  induction l with
  | nil => rfl
  | cons a t ih => simp [ih]

theorem onStack_congr {s s' : RState}
    (h : s'.stack.map Prod.fst = s.stack.map Prod.fst) (c : Nat) :
    onStack s' c = onStack s c := by
  unfold onStack
  rw [any_fst_eq, any_fst_eq, h]

theorem runEffect_kind (fuel : Nat) (s : RState) (e i : Nat) :
    (((runEffect fuel s e).2).cells i).kind = (s.cells i).kind :=
  ((runEffect_evolves fuel s e).1 i).1

theorem runEffect_callback (fuel : Nat) (s : RState) (e i : Nat) :
    (((runEffect fuel s e).2).cells i).callback = (s.cells i).callback :=
  ((runEffect_evolves fuel s e).1 i).2.2.1

theorem runEffect_disposed (fuel : Nat) (s : RState) (e i : Nat) :
    (((runEffect fuel s e).2).cells i).disposed = (s.cells i).disposed :=
  ((runEffect_evolves fuel s e).1 i).2.2.2.1

theorem mem_subs_dispose_fold (o : Nat) :
    ∀ (l : List Nat) (s : RState) (i o' : Nat),
    o' ∈ ((l.foldl (fun t c => unsubscribe t c o) s).cells i).subs ↔
      (o' ∈ (s.cells i).subs ∧ ¬(o' = o ∧ i ∈ l)) := by
  intro l
  induction l with
  | nil => intro s i o'; simp
  | cons d rest ih =>
      intro s i o'
      simp only [List.foldl_cons]
      rw [ih]
      simp only [mem_subs_unsubscribe, List.mem_cons]
      by_cases hi : i = d
      · subst hi; tauto
      · simp only [hi]; tauto

/-- `dispose()` under the converse invariant removes the effect from every
cell's subscriber set and marks it disposed (spec §4.4, §3). -/
theorem dispose_spec {s : RState} (hC : Converse s) (e : Nat) :
    (∀ c, e ∉ ((dispose s e).cells c).subs) ∧ ((dispose s e).cells e).disposed = true := by
  constructor
  · intro c
    simp only [dispose, cells_modifyCell]
    by_cases h : c = e
    · subst h
      rw [if_pos rfl]
      intro hmem
      dsimp only at hmem
      rw [mem_subs_dispose_fold] at hmem
      exact hmem.2 ⟨rfl, (hC c c).mp hmem.1⟩
    · rw [if_neg h]
      intro hmem
      rw [mem_subs_dispose_fold] at hmem
      exact hmem.2 ⟨rfl, (hC c e).mp hmem.1⟩
  · simp [dispose, cells_modifyCell]

theorem isComputed_not_isEffect {k : NodeKind} (h : isComputed k = true) :
    isEffect k = false := by
  cases k <;> simp_all [isComputed, isEffect]

theorem count_append_single_ne (l : List Nat) {c e : Nat} (h : c ≠ e) :
    (l ++ [c]).count e = l.count e := by
  rw [List.count_append]
  have h0 : List.count e [c] = 0 := List.count_eq_zero.mpr (by simp [Ne.symm h])
  rw [h0, Nat.add_zero]

theorem count_append_single_self (l : List Nat) (e : Nat) :
    (l ++ [e]).count e = l.count e + 1 := by
  rw [List.count_append]
  simp

theorem log_foldl {g : RState → Nat → RState} (hg : ∀ t d, (g t d).log = t.log) :
    ∀ (l : List Nat) (s : RState), (l.foldl g s).log = s.log := by
  intro l
  induction l with
  | nil => intro s; rfl
  | cons d rest ih => intro s; simp only [List.foldl_cons]; rw [ih, hg]

theorem pending_foldl {g : RState → Nat → RState} (hg : ∀ t d, (g t d).pending = t.pending) :
    ∀ (l : List Nat) (s : RState), (l.foldl g s).pending = s.pending := by
  intro l
  induction l with
  | nil => intro s; rfl
  | cons d rest ih => intro s; simp only [List.foldl_cons]; rw [ih, hg]

theorem log_unsubscribe (s : RState) (c o : Nat) : (unsubscribe s c o).log = s.log := rfl

theorem log_subscribeTo (s : RState) (c o : Nat) : (subscribeTo s c o).log = s.log := rfl

theorem log_installEdges (s : RState) (o : Nat) (reads : List Nat) :
    (installEdges s o reads).log = s.log := by
  simp only [installEdges, modifyCell, setCell]
  rw [log_foldl (fun t d => by by_cases hd : d ∈ (s.cells o).deps <;> simp [hd, log_subscribeTo]),
    log_foldl (fun t d => by by_cases hd : d ∈ reads <;> simp [hd, log_unsubscribe])]

theorem pending_installEdges (s : RState) (o : Nat) (reads : List Nat) :
    (installEdges s o reads).pending = s.pending := by
  simp only [installEdges, modifyCell, setCell]
  rw [pending_foldl (fun t d => by
      by_cases hd : d ∈ (s.cells o).deps <;> simp [hd, subscribeTo, modifyCell, setCell]),
    pending_foldl (fun t d => by
      by_cases hd : d ∈ reads <;> simp [hd, unsubscribe, modifyCell, setCell])]

theorem cells_enqueue (s : RState) (e : Nat) : (enqueue s e).cells = s.cells := by
  unfold enqueue
  by_cases h : e ∈ s.pending <;> simp [h]

theorem log_enqueue (s : RState) (e : Nat) : (enqueue s e).log = s.log := by
  unfold enqueue
  by_cases h : e ∈ s.pending <;> simp [h]

theorem step_pending_quiet : ∀ (fuel : Nat) (act : Act) (s : RState),
    quiet act = true → (step fuel act s).2.pending = s.pending := by
  intro fuel
  induction fuel with
  | zero => intro act s hq; rfl
  | succ f ih =>
    intro act s hq
    cases act with
    | expr e =>
      cases e with
      | const n => rfl
      | throwE => rfl
      | readCell c => simp only [step]; exact ih (.read c) s rfl
      | add a b =>
          simp only [step]
          split
          next va s1 h1 =>
            have p1 : s1.pending = s.pending := by
              have := ih (.expr a) s rfl; rwa [h1] at this
            split
            next vb s2 h2 =>
              have p2 : s2.pending = s1.pending := by
                have := ih (.expr b) s1 rfl; rwa [h2] at this
              rw [p2, p1]
            next er s2 h2 =>
              have p2 : s2.pending = s1.pending := by
                have := ih (.expr b) s1 rfl; rwa [h2] at this
              rw [p2, p1]
          next er s1 h1 =>
            have p1 : s1.pending = s.pending := by
              have := ih (.expr a) s rfl; rwa [h1] at this
            exact p1
    | read c =>
        simp only [step]
        split
        next hcond => rfl
        next hcond =>
          split
          next hdirty =>
            split
            next v0 s2 h1 =>
              have p1 : s2.pending = (recordRead s c).pending := by
                have := ih (.runComp false c) (recordRead s c) rfl; rwa [h1] at this
              rw [p1, pending_recordRead]
            next er1 s2 h1 =>
              have p1 : s2.pending = (recordRead s c).pending := by
                have := ih (.runComp false c) (recordRead s c) rfl; rwa [h1] at this
              rw [p1, pending_recordRead]
          next hdirty => exact pending_recordRead s c
    | runComp cascade c =>
        have hcf : cascade = false := by
          cases cascade
          · rfl
          · simp [quiet] at hq
        subst hcf
        simp only [step]
        split
        next hstk => rfl
        next hstk =>
          split
          next v0 s2 h1 =>
            have p1 : s2.pending = (logEval (pushFrame s c) c).pending := by
              have := ih (.expr ((logEval (pushFrame s c) c).cells c).compute)
                (logEval (pushFrame s c) c) rfl
              rwa [h1] at this
            rw [if_neg (by simp)]
            show (modifyCell (installEdges (popFrame s2).2 c (popFrame s2).1) c
              (fun n => { n with value := v0, dirty := false })).pending = s.pending
            rw [show (modifyCell (installEdges (popFrame s2).2 c (popFrame s2).1) c
                (fun n => { n with value := v0, dirty := false })).pending =
              (installEdges (popFrame s2).2 c (popFrame s2).1).pending from rfl]
            rw [pending_installEdges, pending_popFrame, p1]
            rfl
          next er1 s2 h1 =>
            have p1 : s2.pending = (logEval (pushFrame s c) c).pending := by
              have := ih (.expr ((logEval (pushFrame s c) c).cells c).compute)
                (logEval (pushFrame s c) c) rfl
              rwa [h1] at this
            show (modifyCell (popFrame s2).2 c (fun n => { n with dirty := true })).pending =
              s.pending
            rw [show (modifyCell (popFrame s2).2 c
                (fun n => { n with dirty := true })).pending = (popFrame s2).2.pending from rfl]
            rw [pending_popFrame, p1]
            rfl
    | write c v => simp [quiet] at hq
    | notify l => simp [quiet] at hq
    | cmd m =>
      cases m with
      | skip => rfl
      | seq a b =>
          have hqa : noWriteCmd a = true := by
            have := hq
            simp [quiet, noWriteCmd, Bool.and_eq_true] at this
            exact this.1
          have hqb : noWriteCmd b = true := by
            have := hq
            simp [quiet, noWriteCmd, Bool.and_eq_true] at this
            exact this.2
          simp only [step]
          split
          next v0 s1 h1 =>
            have p1 : s1.pending = s.pending := by
              have := ih (.cmd a) s hqa; rwa [h1] at this
            have p2 := ih (.cmd b) s1 hqb
            rw [p2, p1]
          next er s1 h1 =>
            have p1 : s1.pending = s.pending := by
              have := ih (.cmd a) s hqa; rwa [h1] at this
            exact p1
      | readC c =>
          simp only [step]
          split
          next v0 s1 h1 =>
            have p1 : s1.pending = s.pending := by
              have := ih (.read c) s rfl; rwa [h1] at this
            exact p1
          next er s1 h1 =>
            have p1 : s1.pending = s.pending := by
              have := ih (.read c) s rfl; rwa [h1] at this
            exact p1
      | writeC c e => simp [quiet, noWriteCmd] at hq

theorem runEffect_pending (fuel : Nat) (s : RState) (e : Nat)
    (hw : noWriteCmd ((s.cells e).callback) = true) :
    (runEffect fuel s e).2.pending = s.pending := by
  simp only [runEffect]
  split
  next h => rfl
  next h =>
    split
    next v0 s2 h1 =>
      have p1 : s2.pending = (logEval (pushFrame s e) e).pending := by
        have := step_pending_quiet fuel (.cmd ((logEval (pushFrame s e) e).cells e).callback)
          (logEval (pushFrame s e) e) hw
        rwa [h1] at this
      show (installEdges (popFrame s2).2 e (popFrame s2).1).pending = s.pending
      rw [pending_installEdges, pending_popFrame, p1]
      rfl
    next er s2 h1 =>
      have p1 : s2.pending = (logEval (pushFrame s e) e).pending := by
        have := step_pending_quiet fuel (.cmd ((logEval (pushFrame s e) e).cells e).callback)
          (logEval (pushFrame s e) e) hw
        rwa [h1] at this
      show (popFrame s2).2.pending = s.pending
      rw [pending_popFrame, p1]
      rfl

theorem flushPass_pending (fuel : Nat) :
    ∀ (l : List Nat) (s : RState), (∀ i, noWriteCmd ((s.cells i).callback) = true) →
      (flushPass fuel l s).pending = s.pending := by
  intro l
  induction l with
  | nil => intro s hw; rfl
  | cons x rest ih =>
      intro s hw
      simp only [flushPass]
      split
      next h => exact ih s hw
      next h =>
        rw [ih _ (fun i => by rw [runEffect_callback]; exact hw i), runEffect_pending]
        exact hw x

theorem kind_modifyCell (s : RState) (i : Nat) (f : Node → Node) (j : Nat) :
    ((modifyCell s i f).cells j).kind =
      if j = i then (f (s.cells i)).kind else (s.cells j).kind := by
  rw [cells_modifyCell]
  by_cases h : j = i <;> simp [h]

theorem kind_installEdges (s : RState) (o : Nat) (reads : List Nat) (i : Nat) :
    ((installEdges s o reads).cells i).kind = (s.cells i).kind :=
  ((evolves_installEdges s o reads).1 i).1

theorem step_log_count (e : Nat) : ∀ (fuel : Nat) (act : Act) (s : RState),
    isEffect ((s.cells e).kind) = true →
    (∀ b c, act = Act.runComp b c → c ≠ e) →
    ((step fuel act s).2.log.count e) = s.log.count e := by
  intro fuel
  induction fuel with
  | zero => intro act s _ _; rfl
  | succ f ih =>
    intro act s hke hact
    cases act with
    | expr ex =>
      cases ex with
      | const n => rfl
      | throwE => rfl
      | readCell c =>
          simp only [step]
          exact ih (.read c) s hke (fun b c' h => by simp at h)
      | add a b =>
          simp only [step]
          split
          next va s1 h1 =>
            have k1 : (s1.cells e).kind = (s.cells e).kind := by
              have := step_kind f (.expr a) s e; rwa [h1] at this
            have c1 : s1.log.count e = s.log.count e := by
              have := ih (.expr a) s hke (fun b c' h => by simp at h); rwa [h1] at this
            split
            next vb s2 h2 =>
              have c2 : s2.log.count e = s1.log.count e := by
                have := ih (.expr b) s1 (by rw [k1]; exact hke) (fun b c' h => by simp at h)
                rwa [h2] at this
              rw [c2, c1]
            next er s2 h2 =>
              have c2 : s2.log.count e = s1.log.count e := by
                have := ih (.expr b) s1 (by rw [k1]; exact hke) (fun b c' h => by simp at h)
                rwa [h2] at this
              rw [c2, c1]
          next er s1 h1 =>
            have c1 : s1.log.count e = s.log.count e := by
              have := ih (.expr a) s hke (fun b c' h => by simp at h); rwa [h1] at this
            exact c1
    | read c =>
        simp only [step]
        split
        next hcond => rfl
        next hcond =>
          split
          next hdirty =>
            have hcc : isComputed ((s.cells c).kind) = true := by
              have := hdirty.1; rwa [cells_recordRead] at this
            have hcne : c ≠ e := by
              intro h
              rw [h] at hcc
              have hf := isComputed_not_isEffect hcc
              rw [hke] at hf
              exact Bool.noConfusion hf
            split
            next v0 s2 h1 =>
              have cr : s2.log.count e = (recordRead s c).log.count e := by
                have := ih (.runComp false c) (recordRead s c)
                  (by rw [cells_recordRead]; exact hke)
                  (fun b c' h => by cases h; exact hcne)
                rwa [h1] at this
              rw [cr, log_recordRead]
            next er1 s2 h1 =>
              have cr : s2.log.count e = (recordRead s c).log.count e := by
                have := ih (.runComp false c) (recordRead s c)
                  (by rw [cells_recordRead]; exact hke)
                  (fun b c' h => by cases h; exact hcne)
                rwa [h1] at this
              rw [cr, log_recordRead]
          next hdirty =>
            rw [log_recordRead]
    | runComp cascade c =>
        have hcne : c ≠ e := hact cascade c rfl
        simp only [step]
        split
        next hstk => rfl
        next hstk =>
          have clog : ((logEval (pushFrame s c) c).log.count e) = s.log.count e :=
            count_append_single_ne s.log hcne
          split
          next v0 s2 h1 =>
            have k1 : (s2.cells e).kind = (s.cells e).kind := by
              have := step_kind f (.expr ((logEval (pushFrame s c) c).cells c).compute)
                (logEval (pushFrame s c) c) e
              rwa [h1] at this
            have ci : s2.log.count e = s.log.count e := by
              have := ih (.expr ((logEval (pushFrame s c) c).cells c).compute)
                (logEval (pushFrame s c) c) hke (fun b c' h => by simp at h)
              rw [h1] at this
              rw [this, clog]
            split
            next hcas =>
              have kS : ((modifyCell (installEdges (popFrame s2).2 c (popFrame s2).1) c
                  (fun n => { n with value := v0, dirty := false })).cells e).kind =
                  (s.cells e).kind := by
                rw [kind_modifyCell, if_neg (fun hec => hcne hec.symm), kind_installEdges,
                  cells_popFrame, k1]
              have cn := ih (.notify ((modifyCell (installEdges (popFrame s2).2 c
                  (popFrame s2).1) c (fun n => { n with value := v0, dirty := false })).cells
                  c).subs)
                (modifyCell (installEdges (popFrame s2).2 c (popFrame s2).1) c
                  (fun n => { n with value := v0, dirty := false }))
                (by rw [kS]; exact hke) (fun b c' h => by simp at h)
              rw [cn]
              show (installEdges (popFrame s2).2 c (popFrame s2).1).log.count e = s.log.count e
              rw [log_installEdges, log_popFrame, ci]
            next hcas =>
              show (installEdges (popFrame s2).2 c (popFrame s2).1).log.count e = s.log.count e
              rw [log_installEdges, log_popFrame, ci]
          next er1 s2 h1 =>
            have ci : s2.log.count e = s.log.count e := by
              have := ih (.expr ((logEval (pushFrame s c) c).cells c).compute)
                (logEval (pushFrame s c) c) hke (fun b c' h => by simp at h)
              rw [h1] at this
              rw [this, clog]
            show (popFrame s2).2.log.count e = s.log.count e
            rw [log_popFrame, ci]
    | write c v =>
        simp only [step]
        split
        next hk => rfl
        next hk =>
          split
          next he => rfl
          next he =>
            have hkM : ((modifyCell s c (fun n =>
                { n with value := v, version := n.version + 1 })).cells e).kind =
                (s.cells e).kind := by
              rw [kind_modifyCell]
              by_cases hec : e = c
              · subst hec; rw [if_pos rfl]
              · rw [if_neg hec]
            have := ih (.notify ((modifyCell s c (fun n =>
                { n with value := v, version := n.version + 1 })).cells c).subs)
              (modifyCell s c (fun n => { n with value := v, version := n.version + 1 }))
              (by rw [hkM]; exact hke) (fun b c' h => by simp at h)
            exact this
    | notify l =>
        cases l with
        | nil => rfl
        | cons x rest =>
            simp only [step]
            split
            next hk => exact ih (.notify rest) s hke (fun b c' h => by simp at h)
            next hk =>
              have hxe : x ≠ e := by
                intro h
                rw [h] at hk
                rw [hk] at hke
                simp [isEffect] at hke
              split
              next v0 s1 h1 =>
                have k1 : (s1.cells e).kind = (s.cells e).kind := by
                  have := step_kind f (.runComp true x) s e; rwa [h1] at this
                have c1 : s1.log.count e = s.log.count e := by
                  have := ih (.runComp true x) s hke (fun b c' h => by cases h; exact hxe)
                  rwa [h1] at this
                have c2 := ih (.notify rest) s1 (by rw [k1]; exact hke)
                  (fun b c' h => by simp at h)
                rw [c2, c1]
              next er1 s1 h1 =>
                have c1 : s1.log.count e = s.log.count e := by
                  have := ih (.runComp true x) s hke (fun b c' h => by cases h; exact hxe)
                  rwa [h1] at this
                exact c1
            next hk =>
              split
              next hd => exact ih (.notify rest) s hke (fun b c' h => by simp at h)
              next hd =>
                have kM : ((modifyCell s x (fun n => { n with dirty := true })).cells e).kind =
                    (s.cells e).kind := by
                  rw [kind_modifyCell]
                  by_cases hec : e = x
                  · subst hec; rw [if_pos rfl]
                  · rw [if_neg hec]
                split
                next v0 s1 h1 =>
                  have k1 : (s1.cells e).kind =
                      ((modifyCell s x (fun n => { n with dirty := true })).cells e).kind := by
                    have := step_kind f (.notify ((modifyCell s x (fun n =>
                        { n with dirty := true })).cells x).subs)
                      (modifyCell s x (fun n => { n with dirty := true })) e
                    rwa [h1] at this
                  have c1 : s1.log.count e = s.log.count e := by
                    have := ih (.notify ((modifyCell s x (fun n =>
                        { n with dirty := true })).cells x).subs)
                      (modifyCell s x (fun n => { n with dirty := true }))
                      (by rw [kM]; exact hke) (fun b c' h => by simp at h)
                    rwa [h1] at this
                  have c2 := ih (.notify rest) s1 (by rw [k1, kM]; exact hke)
                    (fun b c' h => by simp at h)
                  rw [c2, c1]
                next er1 s1 h1 =>
                  have c1 : s1.log.count e = s.log.count e := by
                    have := ih (.notify ((modifyCell s x (fun n =>
                        { n with dirty := true })).cells x).subs)
                      (modifyCell s x (fun n => { n with dirty := true }))
                      (by rw [kM]; exact hke) (fun b c' h => by simp at h)
                    rwa [h1] at this
                  exact c1
            next hk =>
              split
              next hdisp => exact ih (.notify rest) s hke (fun b c' h => by simp at h)
              next hdisp =>
                have := ih (.notify rest) (enqueue s x)
                  (by rw [cells_enqueue]; exact hke) (fun b c' h => by simp at h)
                rw [this, log_enqueue]
            next hk =>
              split
              next hdisp => exact ih (.notify rest) s hke (fun b c' h => by simp at h)
              next hdisp =>
                have := ih (.notify rest) (enqueue s x)
                  (by rw [cells_enqueue]; exact hke) (fun b c' h => by simp at h)
                rw [this, log_enqueue]
    | cmd m =>
      cases m with
      | skip => rfl
      | seq a b =>
          simp only [step]
          split
          next v0 s1 h1 =>
            have k1 : (s1.cells e).kind = (s.cells e).kind := by
              have := step_kind f (.cmd a) s e; rwa [h1] at this
            have c1 : s1.log.count e = s.log.count e := by
              have := ih (.cmd a) s hke (fun b c' h => by simp at h); rwa [h1] at this
            have c2 := ih (.cmd b) s1 (by rw [k1]; exact hke) (fun b c' h => by simp at h)
            rw [c2, c1]
          next er s1 h1 =>
            have c1 : s1.log.count e = s.log.count e := by
              have := ih (.cmd a) s hke (fun b c' h => by simp at h); rwa [h1] at this
            exact c1
      | readC c =>
          simp only [step]
          split
          next v0 s1 h1 =>
            have c1 : s1.log.count e = s.log.count e := by
              have := ih (.read c) s hke (fun b c' h => by simp at h); rwa [h1] at this
            exact c1
          next er s1 h1 =>
            have c1 : s1.log.count e = s.log.count e := by
              have := ih (.read c) s hke (fun b c' h => by simp at h); rwa [h1] at this
            exact c1
      | writeC c ex =>
          simp only [step]
          split
          next v0 s1 h1 =>
            have k1 : (s1.cells e).kind = (s.cells e).kind := by
              have := step_kind f (.expr ex) s e; rwa [h1] at this
            have c1 : s1.log.count e = s.log.count e := by
              have := ih (.expr ex) s hke (fun b c' h => by simp at h); rwa [h1] at this
            have c2 := ih (.write c v0) s1 (by rw [k1]; exact hke) (fun b c' h => by simp at h)
            rw [c2, c1]
          next er s1 h1 =>
            have c1 : s1.log.count e = s.log.count e := by
              have := ih (.expr ex) s hke (fun b c' h => by simp at h); rwa [h1] at this
            exact c1

theorem runEffect_count_le (fuel : Nat) (s : RState) (x e : Nat)
    (hke : isEffect (s.cells e).kind = true) :
    ((runEffect fuel s x).2.log.count e) ≤ s.log.count e + (if x = e then 1 else 0) := by
  simp only [runEffect]
  split
  next h => exact Nat.le_add_right _ _
  next h =>
    have hbound : ((s.log ++ [x]).count e) ≤ s.log.count e + (if x = e then 1 else 0) := by
      by_cases hxe : x = e
      · rw [if_pos hxe, hxe]
        exact le_of_eq (count_append_single_self s.log e)
      · rw [if_neg hxe, count_append_single_ne s.log hxe]
        omega
    split
    next v0 s2 h1 =>
      have c1 : s2.log.count e = (logEval (pushFrame s x) x).log.count e := by
        have := step_log_count e fuel (.cmd ((logEval (pushFrame s x) x).cells x).callback)
          (logEval (pushFrame s x) x) hke (fun b c' hh => by simp at hh)
        rwa [h1] at this
      show ((installEdges (popFrame s2).2 x (popFrame s2).1).log.count e) ≤ _
      rw [log_installEdges, log_popFrame, c1]
      exact hbound
    next er s2 h1 =>
      have c1 : s2.log.count e = (logEval (pushFrame s x) x).log.count e := by
        have := step_log_count e fuel (.cmd ((logEval (pushFrame s x) x).cells x).callback)
          (logEval (pushFrame s x) x) hke (fun b c' hh => by simp at hh)
        rwa [h1] at this
      show ((popFrame s2).2.log.count e) ≤ _
      rw [log_popFrame, c1]
      exact hbound

theorem flushPass_count_le (fuel e : Nat) :
    ∀ (l : List Nat) (s : RState), isEffect (s.cells e).kind = true →
      ((flushPass fuel l s).log.count e) ≤ s.log.count e + l.count e := by
  intro l
  induction l with
  | nil => intro s hke; simp [flushPass]
  | cons x rest ih =>
      intro s hke
      simp only [flushPass]
      have hcount : (List.count e rest) ≤ List.count e (x :: rest) := by
        by_cases hxe : e = x
        · subst hxe; rw [List.count_cons_self]; omega
        · rw [List.count_cons_of_ne hxe]
      split
      next h =>
        have := ih s hke
        omega
      next h =>
        have h1 := ih (runEffect fuel s x).2 (by rw [runEffect_kind]; exact hke)
        have h2 := runEffect_count_le fuel s x e hke
        have h3 : List.count e (x :: rest) = List.count e rest + (if x = e then 1 else 0) := by
          by_cases hxe : x = e
          · subst hxe; rw [if_pos rfl, List.count_cons_self]
          · rw [if_neg hxe, List.count_cons_of_ne (fun hh => hxe hh.symm)]
            omega
        omega

theorem flushNow_empty (fuel : Nat) : ∀ (ceil : Nat) (s : RState),
    s.pending = [] → flushNow fuel ceil s = (.ok (), s) := by
  intro ceil s h
  cases ceil with
  | zero => simp [flushNow, h]
  | succ c => simp [flushNow, h]

theorem flushNow_count_le (fuel e : Nat) :
    ∀ (ceil : Nat) (s : RState), (∀ i, noWriteCmd ((s.cells i).callback) = true) →
      isEffect ((s.cells e).kind) = true →
      ((flushNow fuel ceil s).2.log.count e) ≤ s.log.count e + s.pending.count e := by
  intro ceil
  induction ceil with
  | zero =>
      intro s hw hke
      simp only [flushNow]
      split
      next h => exact Nat.le_add_right _ _
      next h => exact Nat.le_add_right _ _
  | succ c ih =>
      intro s hw hke
      simp only [flushNow]
      split
      next h => exact Nat.le_add_right _ _
      next x rest h =>
        have hw0 : ∀ i, noWriteCmd ((({ s with pending := [] } : RState)).cells i).callback
            = true := hw
        have hp : (flushPass fuel (x :: rest) ({ s with pending := [] } : RState)).pending
            = [] := by
          rw [flushPass_pending fuel (x :: rest) _ hw0]
        rw [flushNow_empty fuel c _ hp]
        have h1 := flushPass_count_le fuel e (x :: rest) ({ s with pending := [] } : RState) hke
        rw [h]
        exact h1

theorem flushNow_ok_pending (fuel : Nat) : ∀ (ceil : Nat) (s : RState),
    errOf (flushNow fuel ceil s).1 = none → (flushNow fuel ceil s).2.pending = [] := by
  intro ceil
  induction ceil with
  | zero =>
      intro s hok
      simp only [flushNow]
      split
      next h => exact h
      next h =>
        rw [flushNow] at hok
        rw [if_neg h] at hok
        simp [errOf] at hok
  | succ c ih =>
      intro s hok
      simp only [flushNow]
      split
      next h => exact h
      next x rest h =>
        apply ih
        rw [flushNow] at hok
        simp only [h] at hok
        exact hok

theorem value_modifyCell (s : RState) (i : Nat) (f : Node → Node) (j : Nat) :
    ((modifyCell s i f).cells j).value =
      if j = i then (f (s.cells i)).value else (s.cells j).value := by
  rw [cells_modifyCell]
  by_cases h : j = i <;> simp [h]

theorem value_foldl {g : RState → Nat → RState}
    (hg : ∀ t d i, ((g t d).cells i).value = (t.cells i).value) :
    ∀ (l : List Nat) (s : RState) (i : Nat),
      ((l.foldl g s).cells i).value = (s.cells i).value := by
  intro l
  induction l with
  | nil => intro s i; rfl
  | cons d rest ih => intro s i; simp only [List.foldl_cons]; rw [ih, hg]

theorem value_unsubscribe (s : RState) (c o i : Nat) :
    ((unsubscribe s c o).cells i).value = (s.cells i).value := by
  rw [unsubscribe, cells_modifyCell]
  by_cases h : i = c <;> simp [h]

theorem value_subscribeTo (s : RState) (c o i : Nat) :
    ((subscribeTo s c o).cells i).value = (s.cells i).value := by
  rw [subscribeTo, cells_modifyCell]
  by_cases h : i = c
  · subst h
    by_cases hm : o ∈ (s.cells i).subs <;> simp [hm]
  · simp [h]

theorem value_installEdges (s : RState) (o : Nat) (reads : List Nat) (i : Nat) :
    ((installEdges s o reads).cells i).value = (s.cells i).value := by
  simp only [installEdges]
  rw [value_modifyCell]
  have h1 : ∀ (t : RState) (d i' : Nat),
      (((if d ∈ (s.cells o).deps then t else subscribeTo t d o)).cells i').value =
        (t.cells i').value := by
    intro t d i'
    by_cases hd : d ∈ (s.cells o).deps <;> simp [hd, value_subscribeTo]
  have h2 : ∀ (t : RState) (d i' : Nat),
      (((if d ∈ reads then t else unsubscribe t d o)).cells i').value =
        (t.cells i').value := by
    intro t d i'
    by_cases hd : d ∈ reads <;> simp [hd, value_unsubscribe]
  by_cases h : i = o
  · subst h
    rw [if_pos rfl]
    show ((reads.foldl (fun t c => if c ∈ (s.cells i).deps then t else subscribeTo t c i)
      ((s.cells i).deps.foldl (fun t c => if c ∈ reads then t else unsubscribe t c i)
        s)).cells i).value = (s.cells i).value
    rw [value_foldl h1, value_foldl h2]
  · rw [if_neg h]
    rw [value_foldl h1, value_foldl h2]

theorem onStack_pushFrame (s : RState) (c L : Nat) (h : onStack s L = true) :
    onStack (pushFrame s c) L = true := by
  simp only [onStack, pushFrame, List.any_cons]
  simp only [onStack] at h
  rw [h]
  simp

theorem onStack_pushFrame_self (s : RState) (c : Nat) : onStack (pushFrame s c) c = true := by
  simp [onStack, pushFrame]

theorem step_count_onStack (L : Nat) : ∀ (fuel : Nat) (act : Act) (s : RState),
    onStack s L = true →
    ((step fuel act s).2.log.count L) = s.log.count L := by
  intro fuel
  induction fuel with
  | zero => intro act s _; rfl
  | succ f ih =>
    intro act s hL
    have hrr : onStack (recordRead s L) L = onStack s L :=
      onStack_congr (stack_recordRead s L) L
    cases act with
    | expr ex =>
      cases ex with
      | const n => rfl
      | throwE => rfl
      | readCell c => simp only [step]; exact ih (.read c) s hL
      | add a b =>
          simp only [step]
          split
          next va s1 h1 =>
            have hms := step_stackShape f (.expr a) s
            rw [h1] at hms
            have o1 : onStack s1 L = true := by rw [onStack_congr hms L]; exact hL
            have c1 : s1.log.count L = s.log.count L := by
              have := ih (.expr a) s hL; rwa [h1] at this
            split
            next vb s2 h2 =>
              have c2 : s2.log.count L = s1.log.count L := by
                have := ih (.expr b) s1 o1; rwa [h2] at this
              rw [c2, c1]
            next er s2 h2 =>
              have c2 : s2.log.count L = s1.log.count L := by
                have := ih (.expr b) s1 o1; rwa [h2] at this
              rw [c2, c1]
          next er s1 h1 =>
            have c1 : s1.log.count L = s.log.count L := by
              have := ih (.expr a) s hL; rwa [h1] at this
            exact c1
    | read c =>
        simp only [step]
        split
        next hcond => rfl
        next hcond =>
          split
          next hdirty =>
            split
            next v0 s2 h1 =>
              have cr : s2.log.count L = (recordRead s c).log.count L := by
                have := ih (.runComp false c) (recordRead s c)
                  (by rw [onStack_congr (stack_recordRead s c) L]; exact hL)
                rwa [h1] at this
              rw [cr, log_recordRead]
            next er1 s2 h1 =>
              have cr : s2.log.count L = (recordRead s c).log.count L := by
                have := ih (.runComp false c) (recordRead s c)
                  (by rw [onStack_congr (stack_recordRead s c) L]; exact hL)
                rwa [h1] at this
              rw [cr, log_recordRead]
          next hdirty => rw [log_recordRead]
    | runComp cascade c =>
        simp only [step]
        split
        next hstk => rfl
        next hstk =>
          have hcL : c ≠ L := by
            intro h
            rw [h] at hstk
            exact hstk hL
          have clog : ((logEval (pushFrame s c) c).log.count L) = s.log.count L :=
            count_append_single_ne s.log hcL
          have hpush : onStack (logEval (pushFrame s c) c) L = true :=
            onStack_pushFrame s c L hL
          split
          next v0 s2 h1 =>
            have o2 : onStack s2 L = true := by
              have hms := step_stackShape f (.expr ((logEval (pushFrame s c) c).cells c).compute)
                (logEval (pushFrame s c) c)
              rw [h1] at hms
              rw [onStack_congr hms L]
              exact hpush
            have ci : s2.log.count L = s.log.count L := by
              have := ih (.expr ((logEval (pushFrame s c) c).cells c).compute)
                (logEval (pushFrame s c) c) hpush
              rw [h1] at this
              rw [this, clog]
            have oS : onStack (modifyCell (installEdges (popFrame s2).2 c (popFrame s2).1) c
                (fun n => { n with value := v0, dirty := false })) L = true := by
              have hms := step_stackShape f (.expr ((logEval (pushFrame s c) c).cells c).compute)
                (logEval (pushFrame s c) c)
              rw [h1] at hms
              have htail : (popFrame s2).2.stack.map Prod.fst = s.stack.map Prod.fst := by
                rw [stack_popFrame]
                have : s2.stack.map Prod.fst = c :: s.stack.map Prod.fst := by
                  simpa [logEval, pushFrame] using hms
                cases hb : s2.stack with
                | nil => rw [hb] at this; simp at this
                | cons hd tl =>
                    rw [hb] at this
                    simp only [List.map_cons, List.cons.injEq] at this
                    simpa using this.2
              have : onStack (modifyCell (installEdges (popFrame s2).2 c (popFrame s2).1) c
                  (fun n => { n with value := v0, dirty := false })) L = onStack s L := by
                apply onStack_congr
                show (installEdges (popFrame s2).2 c (popFrame s2).1).stack.map Prod.fst = _
                rw [(evolves_installEdges (popFrame s2).2 c (popFrame s2).1).2.1, htail]
              rw [this]
              exact hL
            split
            next hcas =>
              have cn := ih (.notify ((modifyCell (installEdges (popFrame s2).2 c
                  (popFrame s2).1) c (fun n => { n with value := v0, dirty := false })).cells
                  c).subs)
                (modifyCell (installEdges (popFrame s2).2 c (popFrame s2).1) c
                  (fun n => { n with value := v0, dirty := false })) oS
              rw [cn]
              show (installEdges (popFrame s2).2 c (popFrame s2).1).log.count L = s.log.count L
              rw [log_installEdges, log_popFrame, ci]
            next hcas =>
              show (installEdges (popFrame s2).2 c (popFrame s2).1).log.count L = s.log.count L
              rw [log_installEdges, log_popFrame, ci]
          next er1 s2 h1 =>
            have ci : s2.log.count L = s.log.count L := by
              have := ih (.expr ((logEval (pushFrame s c) c).cells c).compute)
                (logEval (pushFrame s c) c) hpush
              rw [h1] at this
              rw [this, clog]
            show (popFrame s2).2.log.count L = s.log.count L
            rw [log_popFrame, ci]
    | write c v =>
        simp only [step]
        split
        next hk => rfl
        next hk =>
          split
          next he => rfl
          next he =>
            have := ih (.notify ((modifyCell s c (fun n =>
                { n with value := v, version := n.version + 1 })).cells c).subs)
              (modifyCell s c (fun n => { n with value := v, version := n.version + 1 })) hL
            exact this
    | notify l =>
        cases l with
        | nil => rfl
        | cons x rest =>
            simp only [step]
            split
            next hk => exact ih (.notify rest) s hL
            next hk =>
              split
              next v0 s1 h1 =>
                have o1 : onStack s1 L = true := by
                  have hms := step_stackShape f (.runComp true x) s
                  rw [h1] at hms
                  rw [onStack_congr hms L]
                  exact hL
                have c1 : s1.log.count L = s.log.count L := by
                  have := ih (.runComp true x) s hL; rwa [h1] at this
                have c2 := ih (.notify rest) s1 o1
                rw [c2, c1]
              next er1 s1 h1 =>
                have c1 : s1.log.count L = s.log.count L := by
                  have := ih (.runComp true x) s hL; rwa [h1] at this
                exact c1
            next hk =>
              split
              next hd => exact ih (.notify rest) s hL
              next hd =>
                split
                next v0 s1 h1 =>
                  have o1 : onStack s1 L = true := by
                    have hms := step_stackShape f (.notify ((modifyCell s x (fun n =>
                        { n with dirty := true })).cells x).subs)
                      (modifyCell s x (fun n => { n with dirty := true }))
                    rw [h1] at hms
                    rw [onStack_congr hms L]
                    exact hL
                  have c1 : s1.log.count L = s.log.count L := by
                    have := ih (.notify ((modifyCell s x (fun n =>
                        { n with dirty := true })).cells x).subs)
                      (modifyCell s x (fun n => { n with dirty := true })) hL
                    rwa [h1] at this
                  have c2 := ih (.notify rest) s1 o1
                  rw [c2, c1]
                next er1 s1 h1 =>
                  have c1 : s1.log.count L = s.log.count L := by
                    have := ih (.notify ((modifyCell s x (fun n =>
                        { n with dirty := true })).cells x).subs)
                      (modifyCell s x (fun n => { n with dirty := true })) hL
                    rwa [h1] at this
                  exact c1
            next hk =>
              split
              next hdisp => exact ih (.notify rest) s hL
              next hdisp =>
                have hst : (enqueue s x).stack = s.stack := by
                  unfold enqueue
                  by_cases h : x ∈ s.pending <;> simp [h]
                have := ih (.notify rest) (enqueue s x)
                  (by rw [@onStack_congr s (enqueue s x) (by rw [hst]) L]; exact hL)
                rw [this, log_enqueue]
            next hk =>
              split
              next hdisp => exact ih (.notify rest) s hL
              next hdisp =>
                have hst : (enqueue s x).stack = s.stack := by
                  unfold enqueue
                  by_cases h : x ∈ s.pending <;> simp [h]
                have := ih (.notify rest) (enqueue s x)
                  (by rw [@onStack_congr s (enqueue s x) (by rw [hst]) L]; exact hL)
                rw [this, log_enqueue]
    | cmd m =>
      cases m with
      | skip => rfl
      | seq a b =>
          simp only [step]
          split
          next v0 s1 h1 =>
            have o1 : onStack s1 L = true := by
              have hms := step_stackShape f (.cmd a) s
              rw [h1] at hms
              rw [onStack_congr hms L]
              exact hL
            have c1 : s1.log.count L = s.log.count L := by
              have := ih (.cmd a) s hL; rwa [h1] at this
            have c2 := ih (.cmd b) s1 o1
            rw [c2, c1]
          next er s1 h1 =>
            have c1 : s1.log.count L = s.log.count L := by
              have := ih (.cmd a) s hL; rwa [h1] at this
            exact c1
      | readC c =>
          simp only [step]
          split
          next v0 s1 h1 =>
            have c1 : s1.log.count L = s.log.count L := by
              have := ih (.read c) s hL; rwa [h1] at this
            exact c1
          next er s1 h1 =>
            have c1 : s1.log.count L = s.log.count L := by
              have := ih (.read c) s hL; rwa [h1] at this
            exact c1
      | writeC c ex =>
          simp only [step]
          split
          next v0 s1 h1 =>
            have o1 : onStack s1 L = true := by
              have hms := step_stackShape f (.expr ex) s
              rw [h1] at hms
              rw [onStack_congr hms L]
              exact hL
            have c1 : s1.log.count L = s.log.count L := by
              have := ih (.expr ex) s hL; rwa [h1] at this
            have c2 := ih (.write c v0) s1 o1
            rw [c2, c1]
          next er s1 h1 =>
            have c1 : s1.log.count L = s.log.count L := by
              have := ih (.expr ex) s hL; rwa [h1] at this
            exact c1

theorem stack_enqueue (s : RState) (x : Nat) : (enqueue s x).stack = s.stack := by
  unfold enqueue
  by_cases h : x ∈ s.pending <;> simp [h]

theorem stack_modifyCell (s : RState) (i : Nat) (f : Node → Node) :
    (modifyCell s i f).stack = s.stack := rfl

theorem step_value_onStack (L : Nat) : ∀ (fuel : Nat) (act : Act) (s : RState),
    isComputed ((s.cells L).kind) = true → onStack s L = true →
    ((step fuel act s).2.cells L).value = (s.cells L).value := by
  intro fuel
  induction fuel with
  | zero => intro act s _ _; rfl
  | succ f ih =>
    intro act s hkL hL
    cases act with
    | expr ex =>
      cases ex with
      | const n => rfl
      | throwE => rfl
      | readCell c => simp only [step]; exact ih (.read c) s hkL hL
      | add a b =>
          simp only [step]
          split
          next va s1 h1 =>
            have hms := step_stackShape f (.expr a) s
            rw [h1] at hms
            have o1 : onStack s1 L = true := by rw [onStack_congr hms L]; exact hL
            have k1 : (s1.cells L).kind = (s.cells L).kind := by
              have := step_kind f (.expr a) s L; rwa [h1] at this
            have c1 : (s1.cells L).value = (s.cells L).value := by
              have := ih (.expr a) s hkL hL; rwa [h1] at this
            split
            next vb s2 h2 =>
              have c2 : (s2.cells L).value = (s1.cells L).value := by
                have := ih (.expr b) s1 (by rw [k1]; exact hkL) o1; rwa [h2] at this
              rw [c2, c1]
            next er s2 h2 =>
              have c2 : (s2.cells L).value = (s1.cells L).value := by
                have := ih (.expr b) s1 (by rw [k1]; exact hkL) o1; rwa [h2] at this
              rw [c2, c1]
          next er s1 h1 =>
            have c1 : (s1.cells L).value = (s.cells L).value := by
              have := ih (.expr a) s hkL hL; rwa [h1] at this
            exact c1
    | read c =>
        simp only [step]
        split
        next hcond => rfl
        next hcond =>
          have hkr : ((recordRead s c).cells L).kind = (s.cells L).kind := by
            rw [cells_recordRead]
          have hor : onStack (recordRead s c) L = true := by
            rw [onStack_congr (stack_recordRead s c) L]; exact hL
          split
          next hdirty =>
            split
            next v0 s2 h1 =>
              have cr : (s2.cells L).value = ((recordRead s c).cells L).value := by
                have := ih (.runComp false c) (recordRead s c) (by rw [hkr]; exact hkL) hor
                rwa [h1] at this
              rw [cr, cells_recordRead]
            next er1 s2 h1 =>
              have cr : (s2.cells L).value = ((recordRead s c).cells L).value := by
                have := ih (.runComp false c) (recordRead s c) (by rw [hkr]; exact hkL) hor
                rwa [h1] at this
              rw [cr, cells_recordRead]
          next hdirty => rw [cells_recordRead]
    | runComp cascade c =>
        simp only [step]
        split
        next hstk => rfl
        next hstk =>
          have hcL : c ≠ L := by
            intro h
            rw [h] at hstk
            exact hstk hL
          have hpush : onStack (logEval (pushFrame s c) c) L = true :=
            onStack_pushFrame s c L hL
          split
          next v0 s2 h1 =>
            have hms := step_stackShape f (.expr ((logEval (pushFrame s c) c).cells c).compute)
              (logEval (pushFrame s c) c)
            rw [h1] at hms
            have ci : (s2.cells L).value = (s.cells L).value := by
              have := ih (.expr ((logEval (pushFrame s c) c).cells c).compute)
                (logEval (pushFrame s c) c) hkL hpush
              rwa [h1] at this
            have k2 : (s2.cells L).kind = (s.cells L).kind := by
              have := step_kind f (.expr ((logEval (pushFrame s c) c).cells c).compute)
                (logEval (pushFrame s c) c) L
              rwa [h1] at this
            have htail : (popFrame s2).2.stack.map Prod.fst = s.stack.map Prod.fst := by
              rw [stack_popFrame]
              have hshape : s2.stack.map Prod.fst = c :: s.stack.map Prod.fst := by
                simpa [logEval, pushFrame] using hms
              cases hb : s2.stack with
              | nil => rw [hb] at hshape; simp at hshape
              | cons hd tl =>
                  rw [hb] at hshape
                  simp only [List.map_cons, List.cons.injEq] at hshape
                  simpa using hshape.2
            have vS : ((modifyCell (installEdges (popFrame s2).2 c (popFrame s2).1) c
                (fun n => { n with value := v0, dirty := false })).cells L).value =
                (s.cells L).value := by
              rw [value_modifyCell, if_neg (fun h => hcL h.symm), value_installEdges,
                cells_popFrame, ci]
            split
            next hcas =>
              have kS : ((modifyCell (installEdges (popFrame s2).2 c (popFrame s2).1) c
                  (fun n => { n with value := v0, dirty := false })).cells L).kind =
                  (s.cells L).kind := by
                rw [kind_modifyCell, if_neg (fun h => hcL h.symm), kind_installEdges,
                  cells_popFrame, k2]
              have oS : onStack (modifyCell (installEdges (popFrame s2).2 c (popFrame s2).1) c
                  (fun n => { n with value := v0, dirty := false })) L = true := by
                have heq : onStack (modifyCell (installEdges (popFrame s2).2 c
                    (popFrame s2).1) c
                    (fun n => { n with value := v0, dirty := false })) L = onStack s L := by
                  apply onStack_congr
                  show (installEdges (popFrame s2).2 c (popFrame s2).1).stack.map Prod.fst = _
                  rw [(evolves_installEdges (popFrame s2).2 c (popFrame s2).1).2.1, htail]
                rw [heq]
                exact hL
              have cn := ih (.notify ((modifyCell (installEdges (popFrame s2).2 c
                  (popFrame s2).1) c (fun n => { n with value := v0, dirty := false })).cells
                  c).subs)
                (modifyCell (installEdges (popFrame s2).2 c (popFrame s2).1) c
                  (fun n => { n with value := v0, dirty := false }))
                (by rw [kS]; exact hkL) oS
              rw [cn, vS]
            next hcas => exact vS
          next er1 s2 h1 =>
            have ci : (s2.cells L).value = (s.cells L).value := by
              have := ih (.expr ((logEval (pushFrame s c) c).cells c).compute)
                (logEval (pushFrame s c) c) hkL hpush
              rwa [h1] at this
            show ((modifyCell (popFrame s2).2 c
                (fun n => { n with dirty := true })).cells L).value = (s.cells L).value
            rw [value_modifyCell, if_neg (fun h => hcL h.symm), cells_popFrame, ci]
    | write c v =>
        simp only [step]
        split
        next hk => rfl
        next hk =>
          have hcL : c ≠ L := by
            intro h
            rw [h] at hk
            exact hk (Or.inl hkL)
          have vM : ((modifyCell s c (fun n =>
              { n with value := v, version := n.version + 1 })).cells L).value =
              (s.cells L).value := by
            rw [value_modifyCell, if_neg (fun h => hcL h.symm)]
          have kM : ((modifyCell s c (fun n =>
              { n with value := v, version := n.version + 1 })).cells L).kind =
              (s.cells L).kind := by
            rw [kind_modifyCell, if_neg (fun h => hcL h.symm)]
          split
          next he => exact vM
          next he =>
            have oM : onStack (modifyCell s c (fun n =>
                { n with value := v, version := n.version + 1 })) L = true := by
              rw [@onStack_congr s (modifyCell s c (fun n =>
                { n with value := v, version := n.version + 1 }))
                (by rw [stack_modifyCell]) L]
              exact hL
            have := ih (.notify ((modifyCell s c (fun n =>
                { n with value := v, version := n.version + 1 })).cells c).subs)
              (modifyCell s c (fun n => { n with value := v, version := n.version + 1 }))
              (by rw [kM]; exact hkL) oM
            rw [this, vM]
    | notify l =>
        cases l with
        | nil => rfl
        | cons x rest =>
            simp only [step]
            split
            next hk => exact ih (.notify rest) s hkL hL
            next hk =>
              split
              next v0 s1 h1 =>
                have hms := step_stackShape f (.runComp true x) s
                rw [h1] at hms
                have o1 : onStack s1 L = true := by rw [onStack_congr hms L]; exact hL
                have k1 : (s1.cells L).kind = (s.cells L).kind := by
                  have := step_kind f (.runComp true x) s L; rwa [h1] at this
                have c1 : (s1.cells L).value = (s.cells L).value := by
                  have := ih (.runComp true x) s hkL hL; rwa [h1] at this
                have c2 := ih (.notify rest) s1 (by rw [k1]; exact hkL) o1
                rw [c2, c1]
              next er1 s1 h1 =>
                have c1 : (s1.cells L).value = (s.cells L).value := by
                  have := ih (.runComp true x) s hkL hL; rwa [h1] at this
                exact c1
            next hk =>
              split
              next hd => exact ih (.notify rest) s hkL hL
              next hd =>
                have vM : ((modifyCell s x (fun n => { n with dirty := true })).cells L).value =
                    (s.cells L).value := by
                  rw [value_modifyCell]
                  by_cases hxL : L = x
                  · subst hxL; rw [if_pos rfl]
                  · rw [if_neg hxL]
                have kM : ((modifyCell s x (fun n => { n with dirty := true })).cells L).kind =
                    (s.cells L).kind := by
                  rw [kind_modifyCell]
                  by_cases hxL : L = x
                  · subst hxL; rw [if_pos rfl]
                  · rw [if_neg hxL]
                have oM : onStack (modifyCell s x (fun n =>
                    { n with dirty := true })) L = true := by
                  rw [@onStack_congr s (modifyCell s x (fun n => { n with dirty := true }))
                    (by rw [stack_modifyCell]) L]
                  exact hL
                split
                next v0 s1 h1 =>
                  have hms := step_stackShape f (.notify ((modifyCell s x (fun n =>
                      { n with dirty := true })).cells x).subs)
                    (modifyCell s x (fun n => { n with dirty := true }))
                  rw [h1] at hms
                  rw [stack_modifyCell] at hms
                  have o1 : onStack s1 L = true := by
                    rw [onStack_congr hms L]; exact hL
                  have k1 : (s1.cells L).kind = (s.cells L).kind := by
                    have := step_kind f (.notify ((modifyCell s x (fun n =>
                        { n with dirty := true })).cells x).subs)
                      (modifyCell s x (fun n => { n with dirty := true })) L
                    rw [h1] at this
                    rw [this, kM]
                  have c1 : (s1.cells L).value = (s.cells L).value := by
                    have := ih (.notify ((modifyCell s x (fun n =>
                        { n with dirty := true })).cells x).subs)
                      (modifyCell s x (fun n => { n with dirty := true }))
                      (by rw [kM]; exact hkL) oM
                    rw [h1] at this
                    rw [this, vM]
                  have c2 := ih (.notify rest) s1 (by rw [k1]; exact hkL) o1
                  rw [c2, c1]
                next er1 s1 h1 =>
                  have c1 : (s1.cells L).value = (s.cells L).value := by
                    have := ih (.notify ((modifyCell s x (fun n =>
                        { n with dirty := true })).cells x).subs)
                      (modifyCell s x (fun n => { n with dirty := true }))
                      (by rw [kM]; exact hkL) oM
                    rw [h1] at this
                    rw [this, vM]
                  exact c1
            next hk =>
              split
              next hdisp => exact ih (.notify rest) s hkL hL
              next hdisp =>
                have := ih (.notify rest) (enqueue s x)
                  (by rw [cells_enqueue]; exact hkL)
                  (by rw [@onStack_congr s (enqueue s x) (by rw [stack_enqueue]) L]; exact hL)
                rw [this, cells_enqueue]
            next hk =>
              split
              next hdisp => exact ih (.notify rest) s hkL hL
              next hdisp =>
                have := ih (.notify rest) (enqueue s x)
                  (by rw [cells_enqueue]; exact hkL)
                  (by rw [@onStack_congr s (enqueue s x) (by rw [stack_enqueue]) L]; exact hL)
                rw [this, cells_enqueue]
    | cmd m =>
      cases m with
      | skip => rfl
      | seq a b =>
          simp only [step]
          split
          next v0 s1 h1 =>
            have hms := step_stackShape f (.cmd a) s
            rw [h1] at hms
            have o1 : onStack s1 L = true := by rw [onStack_congr hms L]; exact hL
            have k1 : (s1.cells L).kind = (s.cells L).kind := by
              have := step_kind f (.cmd a) s L; rwa [h1] at this
            have c1 : (s1.cells L).value = (s.cells L).value := by
              have := ih (.cmd a) s hkL hL; rwa [h1] at this
            have c2 := ih (.cmd b) s1 (by rw [k1]; exact hkL) o1
            rw [c2, c1]
          next er s1 h1 =>
            have c1 : (s1.cells L).value = (s.cells L).value := by
              have := ih (.cmd a) s hkL hL; rwa [h1] at this
            exact c1
      | readC c =>
          simp only [step]
          split
          next v0 s1 h1 =>
            have c1 : (s1.cells L).value = (s.cells L).value := by
              have := ih (.read c) s hkL hL; rwa [h1] at this
            exact c1
          next er s1 h1 =>
            have c1 : (s1.cells L).value = (s.cells L).value := by
              have := ih (.read c) s hkL hL; rwa [h1] at this
            exact c1
      | writeC c ex =>
          simp only [step]
          split
          next v0 s1 h1 =>
            have hms := step_stackShape f (.expr ex) s
            rw [h1] at hms
            have o1 : onStack s1 L = true := by rw [onStack_congr hms L]; exact hL
            have k1 : (s1.cells L).kind = (s.cells L).kind := by
              have := step_kind f (.expr ex) s L; rwa [h1] at this
            have c1 : (s1.cells L).value = (s.cells L).value := by
              have := ih (.expr ex) s hkL hL; rwa [h1] at this
            have c2 := ih (.write c v0) s1 (by rw [k1]; exact hkL) o1
            rw [c2, c1]
          next er s1 h1 =>
            have c1 : (s1.cells L).value = (s.cells L).value := by
              have := ih (.expr ex) s hkL hL; rwa [h1] at this
            exact c1

theorem noEager_step (fuel : Nat) (act : Act) (s : RState) (h : NoEager s) :
    NoEager (step fuel act s).2 := fun i => by rw [step_kind]; exact h i

theorem dirty_modifyCell (s : RState) (i : Nat) (f : Node → Node) (j : Nat) :
    ((modifyCell s i f).cells j).dirty =
      if j = i then (f (s.cells i)).dirty else (s.cells j).dirty := by
  rw [cells_modifyCell]
  by_cases h : j = i <;> simp [h]

theorem write_notify_noEager : ∀ (fuel : Nat) (act : Act) (s : RState), NoEager s →
    (match act with | .write _ _ => True | .notify _ => True | _ => False) →
    (step fuel act s).2.log = s.log ∧
    (∀ i, isComputed ((s.cells i).kind) = true →
      ((step fuel act s).2.cells i).value = (s.cells i).value) ∧
    (∀ i, (s.cells i).dirty = true → ((step fuel act s).2.cells i).dirty = true) := by
  intro fuel
  induction fuel with
  | zero => intro act s _ _; exact ⟨rfl, fun i _ => rfl, fun i h => h⟩
  | succ f ih =>
    intro act s hne wn
    cases act with
    | expr ex => exact wn.elim
    | read c => exact wn.elim
    | runComp cascade c => exact wn.elim
    | cmd m => exact wn.elim
    | write c v =>
        simp only [step]
        split
        next hk => exact ⟨rfl, fun i _ => rfl, fun i h => h⟩
        next hk =>
          have hcnc : ¬isComputed ((s.cells c).kind) = true := fun h => hk (Or.inl h)
          have hM : ∀ i, isComputed ((s.cells i).kind) = true →
              ((modifyCell s c (fun n => { n with value := v, version := n.version + 1 })).cells
                i).value = (s.cells i).value := by
            intro i hi
            rw [value_modifyCell, if_neg (fun h => hcnc (by rw [← h]; exact hi))]
          have hMk : ∀ i, ((modifyCell s c (fun n =>
              { n with value := v, version := n.version + 1 })).cells i).kind =
              (s.cells i).kind := by
            intro i
            rw [kind_modifyCell]
            by_cases hic : i = c
            · subst hic; rw [if_pos rfl]
            · rw [if_neg hic]
          have hMd : ∀ i, (s.cells i).dirty = true →
              ((modifyCell s c (fun n => { n with value := v, version := n.version + 1 })).cells
                i).dirty = true := by
            intro i hi
            rw [dirty_modifyCell]
            by_cases hic : i = c
            · subst hic; rw [if_pos rfl]; exact hi
            · rw [if_neg hic]; exact hi
          split
          next he => exact ⟨rfl, hM, hMd⟩
          next he =>
            have hneM : NoEager (modifyCell s c (fun n =>
                { n with value := v, version := n.version + 1 })) := by
              intro i; rw [hMk]; exact hne i
            obtain ⟨l1, l2, l3⟩ := ih (.notify ((modifyCell s c (fun n =>
                { n with value := v, version := n.version + 1 })).cells c).subs)
              (modifyCell s c (fun n => { n with value := v, version := n.version + 1 }))
              hneM trivial
            refine ⟨l1, fun i hi => ?_, fun i hi => ?_⟩
            · rw [l2 i (by rw [hMk]; exact hi), hM i hi]
            · exact l3 i (hMd i hi)
    | notify l =>
        cases l with
        | nil => exact ⟨rfl, fun i _ => rfl, fun i h => h⟩
        | cons x rest =>
            simp only [step]
            split
            next hk => exact ih (.notify rest) s hne trivial
            next hk => exact absurd hk (hne x)
            next hk =>
              split
              next hd => exact ih (.notify rest) s hne trivial
              next hd =>
                have hMk : ∀ i, ((modifyCell s x (fun n =>
                    { n with dirty := true })).cells i).kind = (s.cells i).kind := by
                  intro i
                  rw [kind_modifyCell]
                  by_cases hic : i = x
                  · subst hic; rw [if_pos rfl]
                  · rw [if_neg hic]
                have hMv : ∀ i, ((modifyCell s x (fun n =>
                    { n with dirty := true })).cells i).value = (s.cells i).value := by
                  intro i
                  rw [value_modifyCell]
                  by_cases hic : i = x
                  · subst hic; rw [if_pos rfl]
                  · rw [if_neg hic]
                have hMd : ∀ i, (s.cells i).dirty = true →
                    ((modifyCell s x (fun n => { n with dirty := true })).cells i).dirty
                      = true := by
                  intro i hi
                  rw [dirty_modifyCell]
                  by_cases hic : i = x
                  · subst hic; rw [if_pos rfl]
                  · rw [if_neg hic]; exact hi
                have hneM : NoEager (modifyCell s x (fun n => { n with dirty := true })) := by
                  intro i; rw [hMk]; exact hne i
                split
                next v0 s1 h1 =>
                  obtain ⟨m1, m2, m3⟩ := ih (.notify ((modifyCell s x (fun n =>
                      { n with dirty := true })).cells x).subs)
                    (modifyCell s x (fun n => { n with dirty := true })) hneM trivial
                  rw [h1] at m1 m2 m3
                  dsimp only at m1 m2 m3
                  have hk1 : ∀ i, (s1.cells i).kind = (s.cells i).kind := by
                    intro i
                    have := step_kind f (.notify ((modifyCell s x (fun n =>
                        { n with dirty := true })).cells x).subs)
                      (modifyCell s x (fun n => { n with dirty := true })) i
                    rw [h1] at this
                    dsimp only at this
                    rw [this, hMk]
                  have hne1 : NoEager s1 := fun i => by rw [hk1]; exact hne i
                  obtain ⟨r1, r2, r3⟩ := ih (.notify rest) s1 hne1 trivial
                  refine ⟨by rw [r1]; exact m1, fun i hi => ?_, fun i hi => ?_⟩
                  · rw [r2 i (by rw [hk1]; exact hi), m2 i (by rw [hMk]; exact hi), hMv i]
                  · exact r3 i (m3 i (hMd i hi))
                next er1 s1 h1 =>
                  obtain ⟨m1, m2, m3⟩ := ih (.notify ((modifyCell s x (fun n =>
                      { n with dirty := true })).cells x).subs)
                    (modifyCell s x (fun n => { n with dirty := true })) hneM trivial
                  rw [h1] at m1 m2 m3
                  dsimp only at m1 m2 m3
                  refine ⟨by rw [m1]; rfl, fun i hi => ?_, fun i hi => ?_⟩
                  · rw [m2 i (by rw [hMk]; exact hi), hMv i]
                  · exact m3 i (hMd i hi)
            next hk =>
              split
              next hdisp => exact ih (.notify rest) s hne trivial
              next hdisp =>
                have hneE : NoEager (enqueue s x) := fun i => by
                  rw [cells_enqueue]; exact hne i
                obtain ⟨r1, r2, r3⟩ := ih (.notify rest) (enqueue s x) hneE trivial
                refine ⟨by rw [r1, log_enqueue], fun i hi => ?_, fun i hi => ?_⟩
                · rw [r2 i (by rw [cells_enqueue]; exact hi), cells_enqueue]
                · exact r3 i (by rw [cells_enqueue]; exact hi)
            next hk =>
              split
              next hdisp => exact ih (.notify rest) s hne trivial
              next hdisp =>
                have hneE : NoEager (enqueue s x) := fun i => by
                  rw [cells_enqueue]; exact hne i
                obtain ⟨r1, r2, r3⟩ := ih (.notify rest) (enqueue s x) hneE trivial
                refine ⟨by rw [r1, log_enqueue], fun i hi => ?_, fun i hi => ?_⟩
                · rw [r2 i (by rw [cells_enqueue]; exact hi), cells_enqueue]
                · exact r3 i (by rw [cells_enqueue]; exact hi)

theorem notify_sets_dirty : ∀ (fuel : Nat) (l : List Nat) (s : RState) (L : Nat),
    NoEager s → L ∈ l → (s.cells L).kind = .computedLazy →
    errOf (step fuel (.notify l) s).1 = none →
    ((step fuel (.notify l) s).2.cells L).dirty = true := by
  intro fuel
  induction fuel with
  | zero => intro l s L _ _ _ hok; simp [step, errOf] at hok
  | succ f ih =>
    intro l s L hne hmem hkL hok
    cases l with
    | nil => exact absurd hmem (List.not_mem_nil L)
    | cons x rest =>
      cases hkx : (s.cells x).kind with
      | source =>
          have hxL : x ≠ L := by
            intro h
            rw [h, hkL] at hkx
            cases hkx
          have hmem' : L ∈ rest := by
            rcases List.mem_cons.mp hmem with h | h
            · exact absurd h.symm hxL
            · exact h
          simp only [step, hkx] at hok ⊢
          exact ih rest s L hne hmem' hkL hok
      | computedEager => exact absurd hkx (hne x)
      | computedLazy =>
          simp only [step, hkx] at hok ⊢
          by_cases hd : (s.cells x).dirty = true
          · rw [if_pos hd] at hok ⊢
            by_cases hxL : x = L
            · subst hxL
              exact (write_notify_noEager f (.notify rest) s hne trivial).2.2 x hd
            · have hmem' : L ∈ rest := by
                rcases List.mem_cons.mp hmem with h | h
                · exact absurd h.symm hxL
                · exact h
              exact ih rest s L hne hmem' hkL hok
          · rw [if_neg hd] at hok ⊢
            have hMk : ∀ i, ((modifyCell s x (fun n =>
                { n with dirty := true })).cells i).kind = (s.cells i).kind := by
              intro i
              rw [kind_modifyCell]
              by_cases hic : i = x
              · subst hic; rw [if_pos rfl]
              · rw [if_neg hic]
            have hneM : NoEager (modifyCell s x (fun n => { n with dirty := true })) := by
              intro i; rw [hMk]; exact hne i
            rcases h1 : step f (.notify ((modifyCell s x (fun n =>
                { n with dirty := true })).cells x).subs)
              (modifyCell s x (fun n => { n with dirty := true })) with ⟨r1, s1⟩
            rw [h1] at hok
            cases r1 with
            | ok v0 =>
                dsimp only at hok
                have hk1 : ∀ i, (s1.cells i).kind =
                    ((modifyCell s x (fun n => { n with dirty := true })).cells i).kind := by
                  intro i
                  have := step_kind f (.notify ((modifyCell s x (fun n =>
                      { n with dirty := true })).cells x).subs)
                    (modifyCell s x (fun n => { n with dirty := true })) i
                  rw [h1] at this
                  exact this
                have hne1 : NoEager s1 := fun i => by rw [hk1, hMk]; exact hne i
                by_cases hxL : x = L
                · subst hxL
                  have hdM : ((modifyCell s x (fun n =>
                      { n with dirty := true })).cells x).dirty = true := by
                    rw [dirty_modifyCell, if_pos rfl]
                  have hd1 : (s1.cells x).dirty = true := by
                    have := (write_notify_noEager f (.notify ((modifyCell s x (fun n =>
                        { n with dirty := true })).cells x).subs)
                      (modifyCell s x (fun n => { n with dirty := true })) hneM
                      trivial).2.2 x hdM
                    rw [h1] at this
                    exact this
                  exact (write_notify_noEager f (.notify rest) s1 hne1 trivial).2.2 x hd1
                · have hmem' : L ∈ rest := by
                    rcases List.mem_cons.mp hmem with h | h
                    · exact absurd h.symm hxL
                    · exact h
                  exact ih rest s1 L hne1 hmem' (by rw [hk1, hMk]; exact hkL) hok
            | error er1 =>
                dsimp only at hok
                simp [errOf] at hok
      | effectEager =>
          have hxL : x ≠ L := by
            intro h
            rw [h, hkL] at hkx
            cases hkx
          have hmem' : L ∈ rest := by
            rcases List.mem_cons.mp hmem with h | h
            · exact absurd h.symm hxL
            · exact h
          simp only [step, hkx] at hok ⊢
          by_cases hdisp : (s.cells x).disposed = true
          · rw [if_pos hdisp] at hok ⊢
            exact ih rest s L hne hmem' hkL hok
          · rw [if_neg hdisp] at hok ⊢
            exact ih rest (enqueue s x) L (fun i => by rw [cells_enqueue]; exact hne i)
              hmem' (by rw [cells_enqueue]; exact hkL) hok
      | effectLazy =>
          have hxL : x ≠ L := by
            intro h
            rw [h, hkL] at hkx
            cases hkx
          have hmem' : L ∈ rest := by
            rcases List.mem_cons.mp hmem with h | h
            · exact absurd h.symm hxL
            · exact h
          simp only [step, hkx] at hok ⊢
          by_cases hdisp : (s.cells x).disposed = true ∨ ¬(s.cells x).active = true
          · rw [if_pos hdisp] at hok ⊢
            exact ih rest s L hne hmem' hkL hok
          · rw [if_neg hdisp] at hok ⊢
            exact ih rest (enqueue s x) L (fun i => by rw [cells_enqueue]; exact hne i)
              hmem' (by rw [cells_enqueue]; exact hkL) hok

theorem runEffect_count_ne (fuel : Nat) (s : RState) (x e : Nat) (hxe : x ≠ e)
    (hke : isEffect ((s.cells e).kind) = true) :
    ((runEffect fuel s x).2.log.count e) = s.log.count e := by
  simp only [runEffect]
  split
  next h => rfl
  next h =>
    have hbound : ((s.log ++ [x]).count e) = s.log.count e := count_append_single_ne s.log hxe
    split
    next v0 s2 h1 =>
      have c1 : s2.log.count e = (logEval (pushFrame s x) x).log.count e := by
        have := step_log_count e fuel (.cmd ((logEval (pushFrame s x) x).cells x).callback)
          (logEval (pushFrame s x) x) hke (fun b c' hh => by simp at hh)
        rwa [h1] at this
      show ((installEdges (popFrame s2).2 x (popFrame s2).1).log.count e) = _
      rw [log_installEdges, log_popFrame, c1]
      exact hbound
    next er s2 h1 =>
      have c1 : s2.log.count e = (logEval (pushFrame s x) x).log.count e := by
        have := step_log_count e fuel (.cmd ((logEval (pushFrame s x) x).cells x).callback)
          (logEval (pushFrame s x) x) hke (fun b c' hh => by simp at hh)
        rwa [h1] at this
      show ((popFrame s2).2.log.count e) = _
      rw [log_popFrame, c1]
      exact hbound

theorem flushPass_count_disposed (fuel e : Nat) :
    ∀ (l : List Nat) (s : RState), (s.cells e).disposed = true →
      isEffect ((s.cells e).kind) = true →
      (flushPass fuel l s).log.count e = s.log.count e := by
  intro l
  induction l with
  | nil => intro s _ _; rfl
  | cons x rest ih =>
      intro s hd hke
      simp only [flushPass]
      split
      next h => exact ih s hd hke
      next h =>
        have hxe : x ≠ e := by
          intro hh
          rw [hh] at h
          exact h hd
        rw [ih (runEffect fuel s x).2 (by rw [runEffect_disposed]; exact hd)
          (by rw [runEffect_kind]; exact hke), runEffect_count_ne fuel s x e hxe hke]

theorem flushNow_count_disposed (fuel e : Nat) :
    ∀ (ceil : Nat) (s : RState), (s.cells e).disposed = true →
      isEffect ((s.cells e).kind) = true →
      ((flushNow fuel ceil s).2.log.count e) = s.log.count e := by
  intro ceil
  induction ceil with
  | zero =>
      intro s hd hke
      simp only [flushNow]
      split
      next h => rfl
      next h => rfl
  | succ c ih =>
      intro s hd hke
      simp only [flushNow]
      split
      next h => rfl
      next x rest h =>
        have hfp := flushPass_count_disposed fuel e (x :: rest)
          ({ s with pending := [] } : RState) hd hke
        rw [ih _ (by rw [((flushPass_evolves fuel (x :: rest) _).1 e).2.2.2.1]; exact hd)
          (by rw [((flushPass_evolves fuel (x :: rest) _).1 e).1]; exact hke), hfp]

theorem mkCells_ge (l : List Node) (i : Nat) (h : l.length ≤ i) : mkCells l i = {} :=
  List.getD_eq_default l {} h

theorem mkCells_mem (l : List Node) (i : Nat) (h : i < l.length) : mkCells l i ∈ l := by
  unfold mkCells
  rw [List.getD_eq_getElem l {} h]
  exact List.getElem_mem h

/-- Converse holds for any concrete scope built from a finite node list,
provided all subscriber/dependency ids are in range and the finite converse
check passes; both side conditions are decidable. -/
theorem converse_of_mkCells {s : RState} (l : List Node) (hc : s.cells = mkCells l)
    (hb : ∀ nd ∈ l, (∀ x ∈ nd.subs, x < l.length) ∧ (∀ x ∈ nd.deps, x < l.length))
    (hcv : ∀ i, i < l.length → ∀ o, o < l.length →
      (o ∈ (l.getD i {}).subs ↔ i ∈ (l.getD o {}).deps)) :
    Converse s := by
  intro i o
  rw [hc]
  by_cases hi : i < l.length
  · by_cases ho : o < l.length
    · exact hcv i hi o ho
    · constructor
      · intro hmem
        exact absurd ((hb _ (mkCells_mem l i hi)).1 o hmem) ho
      · intro hmem
        rw [mkCells_ge l o (le_of_not_lt ho)] at hmem
        exact absurd hmem (List.not_mem_nil i)
  · constructor
    · intro hmem
      rw [mkCells_ge l i (le_of_not_lt hi)] at hmem
      exact absurd hmem (List.not_mem_nil o)
    · intro hmem
      by_cases ho : o < l.length
      · exact absurd ((hb _ (mkCells_mem l o ho)).2 i hmem) hi
      · rw [mkCells_ge l o (le_of_not_lt ho)] at hmem
        exact absurd hmem (List.not_mem_nil i)

theorem noEager_of_mkCells {s : RState} (l : List Node) (hc : s.cells = mkCells l)
    (h : ∀ nd ∈ l, nd.kind ≠ .computedEager) : NoEager s := by
  intro i
  rw [hc]
  by_cases hi : i < l.length
  · exact h _ (mkCells_mem l i hi)
  · rw [mkCells_ge l i (le_of_not_lt hi)]
    intro hh
    cases hh

theorem noWrite_of_mkCells {s : RState} (l : List Node) (hc : s.cells = mkCells l)
    (h : ∀ nd ∈ l, noWriteCmd nd.callback = true) :
    ∀ i, noWriteCmd ((s.cells i).callback) = true := by
  intro i
  rw [hc]
  by_cases hi : i < l.length
  · exact h _ (mkCells_mem l i hi)
  · rw [mkCells_ge l i (le_of_not_lt hi)]
    rfl

theorem subs_modifyCell (s : RState) (i : Nat) (f : Node → Node) (j : Nat) :
    ((modifyCell s i f).cells j).subs =
      if j = i then (f (s.cells i)).subs else (s.cells j).subs := by
  rw [cells_modifyCell]
  by_cases h : j = i <;> simp [h]

/-- C1: within one flush cycle, an Effect whose dependencies changed several
times executes at most once — the pending set has set semantics, so for
write-free effect callbacks a flush runs every effect at most one time more
than it already appears in the log; and in the concrete diamond graph
(A feeds B and C, the Effect D reads B and C), one write to A followed by
one flush executes D's callback exactly once. -/
theorem effect_coalesced_once_per_flush :
    (∀ (fuel ceil : Nat) (s : RState) (e : Nat),
      (∀ i, noWriteCmd ((s.cells i).callback) = true) →
      isEffect ((s.cells e).kind) = true →
      s.pending.Nodup →
      ((flushNow fuel ceil s).2.log.count e) ≤ s.log.count e + 1) ∧
    ((flushNow 30 5 sDiamondWritten).2.log.count 3 = 1 ∧ sDiamondWritten.log.count 3 = 0) := by
  constructor
  · intro fuel ceil s e hw hke hnd
    have h1 := flushNow_count_le fuel e ceil s hw hke
    have h2 : s.pending.count e ≤ 1 := List.nodup_iff_count_le_one.mp hnd e
    omega
  · exact ⟨by decide, by decide⟩

theorem effect_coalesced_once_per_flush_witness :
    ((flushNow 30 5 sDiamondWritten).2.log.count 3) ≤ sDiamondWritten.log.count 3 + 1 :=
  effect_coalesced_once_per_flush.1 30 5 sDiamondWritten 3
    (fun i => by
      show noWriteCmd (((step 30 (.write 0 2) sDiamond).2.cells i)).callback = true
      rw [step_callback_eq 30 (.write 0 2) sDiamond i]
      exact noWrite_of_mkCells [dA, dB, dC, dD] rfl (by decide) i)
    (by rw [show (sDiamondWritten.cells 3).kind = (sDiamond.cells 3).kind from
          step_kind 30 (.write 0 2) sDiamond 3]
        decide)
    (by decide)

/-- C2: a completed tracked evaluation installs exactly the read set as the
observer's dependency edges — removed edges are unsubscribed, added edges
subscribed, so a cell's subscriber set holds the observer exactly when the
last completed evaluation read it — and the subs/deps converse invariant is
maintained by every completed effect execution. -/
theorem tracked_evaluation_installs_exact_edges :
    (∀ (s : RState) (o : Nat) (reads : List Nat), Converse s →
      ((installEdges s o reads).cells o).deps = reads ∧
      (∀ c, (o ∈ ((installEdges s o reads).cells c).subs ↔ c ∈ reads)) ∧
      Converse (installEdges s o reads)) ∧
    (∀ (fuel : Nat) (s : RState) (e : Nat), Converse s →
      errOf (runEffect fuel s e).1 = none →
      Converse (runEffect fuel s e).2 ∧
      (∀ c, (e ∈ ((runEffect fuel s e).2.cells c).subs ↔
        c ∈ ((runEffect fuel s e).2.cells e).deps))) := by
  constructor
  · intro s o reads hC
    refine ⟨?_, ?_, converse_installEdges hC o reads⟩
    · rw [deps_installEdges, if_pos rfl]
    · intro c
      rw [mem_subs_installEdges hC o reads c o, if_pos rfl]
  · intro fuel s e hC _
    have hC' := runEffect_converse fuel s e hC
    exact ⟨hC', fun c => hC' c e⟩

theorem tracked_evaluation_installs_exact_edges_witness :
    (1 ∈ ((runEffect 10 sStaleEdge 1).2.cells 2).subs ↔
      2 ∈ ((runEffect 10 sStaleEdge 1).2.cells 1).deps) :=
  ((tracked_evaluation_installs_exact_edges.2 10 sStaleEdge 1
    (converse_of_mkCells _ rfl (by decide) (by decide)) (by decide))).2 2

/-- C3: once `dispose()` has returned, the effect is removed from every
cell's subscriber set and marked disposed; and a flush never executes a
disposed effect — even one already enqueued before dispose — because the
Flusher checks the disposed flag at execution time. -/
theorem disposed_effect_never_executes :
    (∀ (s : RState) (e : Nat), Converse s →
      (∀ c, e ∉ ((dispose s e).cells c).subs) ∧ ((dispose s e).cells e).disposed = true) ∧
    (∀ (fuel ceil : Nat) (s : RState) (e : Nat),
      (s.cells e).disposed = true →
      isEffect ((s.cells e).kind) = true →
      ((flushNow fuel ceil s).2.log.count e) = s.log.count e) := by
  constructor
  · intro s e hC
    exact dispose_spec hC e
  · intro fuel ceil s e hd hke
    exact flushNow_count_disposed fuel e ceil s hd hke

theorem disposed_effect_never_executes_witness :
    ((∀ c, 1 ∉ ((dispose (step 30 (.write 0 9) sDispose).2 1).cells c).subs) ∧
      ((flushNow 30 5 (dispose (step 30 (.write 0 9) sDispose).2 1)).2.log.count 1 =
        (dispose (step 30 (.write 0 9) sDispose).2 1).log.count 1) ∧
      (step 30 (.write 0 9) sDispose).2.pending = [1]) := by
  refine ⟨(disposed_effect_never_executes.1 (step 30 (.write 0 9) sDispose).2 1
    (step_converse 30 (.write 0 9) sDispose
      (converse_of_mkCells _ rfl (by decide) (by decide)))).1, ?_, by decide⟩
  exact disposed_effect_never_executes.2 30 5 (dispose (step 30 (.write 0 9) sDispose).2 1) 1
    (by decide) (by decide)

/-- C4: writing a value equal to the current one (default identity equality
on values) to a Source Cell is a no-op for notification: nothing is
enqueued, nothing runs, no other cell changes — only the written cell's
version counter advances (and its value is re-assigned to the same
value). -/
theorem equal_write_schedules_nothing :
    ∀ (fuel : Nat) (s : RState) (c : Nat) (v : Int),
      (s.cells c).kind = .source →
      v = (s.cells c).value →
      (step (fuel + 1) (.write c v) s).1 = .ok 0 ∧
      (step (fuel + 1) (.write c v) s).2.pending = s.pending ∧
      (step (fuel + 1) (.write c v) s).2.log = s.log ∧
      (∀ i, i ≠ c → (step (fuel + 1) (.write c v) s).2.cells i = s.cells i) ∧
      (step (fuel + 1) (.write c v) s).2.cells c =
        { s.cells c with value := v, version := (s.cells c).version + 1 } := by
  intro fuel s c v hk he
  simp only [step]
  rw [if_neg (by rw [hk]; simp [isComputed, isEffect]), if_pos he]
  refine ⟨rfl, rfl, rfl, ?_, ?_⟩
  · intro i hi
    rw [cells_modifyCell, if_neg hi]
  · rw [cells_modifyCell, if_pos rfl]

theorem equal_write_schedules_nothing_witness :
    (step 31 (.write 0 0) sDispose).1 = .ok 0 ∧
      (step 31 (.write 0 0) sDispose).2.pending = sDispose.pending ∧
      (step 31 (.write 0 0) sDispose).2.log = sDispose.log := by
  have h := equal_write_schedules_nothing 30 sDispose 0 0 (by decide) (by decide)
  exact ⟨h.1, h.2.1, h.2.2.1⟩

/-- C5: in a graph without eager Derived Cells, a change to a dependency of
a lazy Derived Cell only sets its dirty flag — cached value untouched,
nothing evaluated at change time — and the next read of the dirty cell
recomputes exactly once, stores the new cache, returns it, and clears the
flag; the dirty flag thus moves from true to false only on that read. -/
theorem lazy_computed_defers_recompute :
    (∀ (fuel : Nat) (s : RState) (A L : Nat) (v : Int),
      NoEager s →
      (s.cells A).kind = .source →
      (s.cells L).kind = .computedLazy →
      L ∈ (s.cells A).subs →
      v ≠ (s.cells A).value →
      errOf (step (fuel + 1) (.write A v) s).1 = none →
      ((step (fuel + 1) (.write A v) s).2.cells L).dirty = true ∧
      ((step (fuel + 1) (.write A v) s).2.cells L).value = (s.cells L).value ∧
      (step (fuel + 1) (.write A v) s).2.log = s.log) ∧
    (∀ (fuel : Nat) (s : RState) (L : Nat),
      (s.cells L).kind = .computedLazy →
      (s.cells L).dirty = true →
      onStack s L = false →
      errOf (step (fuel + 2) (.read L) s).1 = none →
      ((step (fuel + 2) (.read L) s).2.cells L).dirty = false ∧
      ((step (fuel + 2) (.read L) s).2.log.count L) = s.log.count L + 1 ∧
      (step (fuel + 2) (.read L) s).1 =
        .ok (((step (fuel + 2) (.read L) s).2.cells L).value)) := by
  constructor
  · intro fuel s A L v hne hkA hkL hmem hv hok
    have hwn := write_notify_noEager (fuel + 1) (.write A v) s hne trivial
    refine ⟨?_, hwn.2.1 L (by rw [hkL]; rfl), hwn.1⟩
    simp only [step] at hok ⊢
    rw [if_neg (by rw [hkA]; simp [isComputed, isEffect])] at hok ⊢
    rw [if_neg hv] at hok ⊢
    refine notify_sets_dirty fuel _ _ L ?_ ?_ ?_ hok
    · intro i
      rw [kind_modifyCell]
      by_cases hic : i = A
      · subst hic; rw [if_pos rfl]; exact hne i
      · rw [if_neg hic]; exact hne i
    · rw [subs_modifyCell, if_pos rfl]
      exact hmem
    · rw [kind_modifyCell]
      by_cases hlc : L = A
      · subst hlc; rw [if_pos rfl]; exact hkL
      · rw [if_neg hlc]; exact hkL
  · intro fuel s L hkL hd hstk hok
    have hcomp : isComputed ((s.cells L).kind) = true := by rw [hkL]; rfl
    simp only [step] at hok ⊢
    rw [if_neg (fun hh => by have h2 := hh.2; rw [hstk] at h2; exact Bool.noConfusion h2)]
      at hok ⊢
    rw [if_pos ⟨by rw [cells_recordRead]; exact hcomp,
      by rw [cells_recordRead]; exact hd⟩] at hok ⊢
    rw [if_neg (by rw [onStack_congr (stack_recordRead s L) L, hstk]; simp)] at hok ⊢
    rcases h2 : step fuel
      (.expr ((logEval (pushFrame (recordRead s L) L) L).cells L).compute)
      (logEval (pushFrame (recordRead s L) L) L) with ⟨r2, s3⟩
    rw [h2] at hok
    cases r2 with
    | error er2 =>
        dsimp only at hok
        simp [errOf] at hok
    | ok v1 =>
        dsimp only at hok ⊢
        rw [if_neg (by simp)] at hok ⊢
        have hc3 : s3.log.count L =
            ((logEval (pushFrame (recordRead s L) L) L).log.count L) := by
          have := step_count_onStack L fuel
            (.expr ((logEval (pushFrame (recordRead s L) L) L).cells L).compute)
            (logEval (pushFrame (recordRead s L) L) L)
            (onStack_pushFrame_self (recordRead s L) L)
          rwa [h2] at this
        refine ⟨?_, ?_, rfl⟩
        · show ((modifyCell (installEdges (popFrame s3).2 L (popFrame s3).1) L
            (fun n => { n with value := v1, dirty := false })).cells L).dirty = false
          rw [dirty_modifyCell, if_pos rfl]
        · show ((modifyCell (installEdges (popFrame s3).2 L (popFrame s3).1) L
            (fun n => { n with value := v1, dirty := false })).log.count L) = _
          show (installEdges (popFrame s3).2 L (popFrame s3).1).log.count L = _
          rw [log_installEdges, log_popFrame, hc3]
          show ((recordRead s L).log ++ [L]).count L = _
          rw [count_append_single_self, log_recordRead]

theorem lazy_computed_defers_recompute_witness :
    (((step 30 (.write 0 5) sLazyPair).2.cells 1).dirty = true ∧
      ((step 30 (.write 0 5) sLazyPair).2.cells 1).value = (sLazyPair.cells 1).value ∧
      (step 30 (.write 0 5) sLazyPair).2.log = sLazyPair.log) ∧
    (((step 30 (.read 1) (step 30 (.write 0 5) sLazyPair).2).2.cells 1).dirty = false ∧
      ((step 30 (.read 1) (step 30 (.write 0 5) sLazyPair).2).2.log.count 1 =
        (step 30 (.write 0 5) sLazyPair).2.log.count 1 + 1)) := by
  constructor
  · exact lazy_computed_defers_recompute.1 29 sLazyPair 0 1 5
      (noEager_of_mkCells _ rfl (by decide)) (by decide) (by decide) (by decide)
      (by decide) (by decide)
  · have h := lazy_computed_defers_recompute.2 28 (step 30 (.write 0 5) sLazyPair).2 1
      (by decide) (by decide) (by decide) (by decide)
    exact ⟨h.1, h.2.1⟩

/-- C6: `flushNow` drains the pending set within the same flush cycle —
whenever it returns without error the pending set is empty, even though
effects may enqueue further effects while running — and an effect that
writes its own dependency on every run makes the drain exceed the iteration
ceiling and raise FlushOverflow instead of hanging (the drain is a total
function bounded by the ceiling). -/
theorem flush_drains_or_overflows :
    (∀ (fuel ceil : Nat) (s : RState),
      errOf (flushNow fuel ceil s).1 = none → (flushNow fuel ceil s).2.pending = []) ∧
    (errOf (flushNow 60 5 sSelfWrite).1 = some .overflow) := by
  constructor
  · intro fuel ceil s hok
    exact flushNow_ok_pending fuel ceil s hok
  · decide

theorem flush_drains_or_overflows_witness :
    (flushNow 30 5 sDiamondWritten).2.pending = [] :=
  flush_drains_or_overflows.1 30 5 sDiamondWritten (by decide)

/-- C7: when a Derived Cell's compute function throws during a read-
triggered evaluation, the error propagates to the reader, the thrown error
is not cached — the cell keeps its previous cached value — and the cell is
left dirty so that the next read retries the computation. -/
theorem failing_compute_not_cached :
    ∀ (fuel : Nat) (s : RState) (c : Nat) (er : Err),
      isComputed ((s.cells c).kind) = true →
      (s.cells c).dirty = true →
      onStack s c = false →
      errOf (step (fuel + 2) (.read c) s).1 = some er →
      ((step (fuel + 2) (.read c) s).2.cells c).value = (s.cells c).value ∧
      ((step (fuel + 2) (.read c) s).2.cells c).dirty = true := by
  intro fuel s c er hk hd hstk hok
  simp only [step] at hok ⊢
  rw [if_neg (fun hh => by have h2 := hh.2; rw [hstk] at h2; exact Bool.noConfusion h2)]
    at hok ⊢
  rw [if_pos ⟨by rw [cells_recordRead]; exact hk,
    by rw [cells_recordRead]; exact hd⟩] at hok ⊢
  rw [if_neg (by rw [onStack_congr (stack_recordRead s c) c, hstk]; simp)] at hok ⊢
  rcases h2 : step fuel
    (.expr ((logEval (pushFrame (recordRead s c) c) c).cells c).compute)
    (logEval (pushFrame (recordRead s c) c) c) with ⟨r2, s3⟩
  rw [h2] at hok
  cases r2 with
  | ok v1 =>
      dsimp only at hok
      rw [if_neg (by simp)] at hok
      dsimp only at hok
      simp [errOf] at hok
  | error er2 =>
      have hv3 : (s3.cells c).value = (s.cells c).value := by
        have := step_value_onStack c fuel
          (.expr ((logEval (pushFrame (recordRead s c) c) c).cells c).compute)
          (logEval (pushFrame (recordRead s c) c) c)
          (by show isComputed (((recordRead s c).cells c).kind) = true
              rw [cells_recordRead]
              exact hk)
          (onStack_pushFrame_self (recordRead s c) c)
        rw [h2] at this
        rw [this]
        show ((recordRead s c).cells c).value = (s.cells c).value
        rw [cells_recordRead]
      constructor
      · show ((modifyCell (popFrame s3).2 c
          (fun n => { n with dirty := true })).cells c).value = _
        rw [value_modifyCell, if_pos rfl]
        show ((popFrame s3).2.cells c).value = _
        rw [cells_popFrame, hv3]
      · show ((modifyCell (popFrame s3).2 c
          (fun n => { n with dirty := true })).cells c).dirty = true
        rw [dirty_modifyCell, if_pos rfl]

theorem failing_compute_not_cached_witness :
    ((step 12 (.read 0) sThrowCell).2.cells 0).value = (sThrowCell.cells 0).value ∧
      ((step 12 (.read 0) sThrowCell).2.cells 0).dirty = true :=
  failing_compute_not_cached 10 sThrowCell 0 .thrown (by decide) (by decide) (by decide)
    (by decide)

/-- C8: `signalify` is idempotent on cells — a value that is already a
Source Cell is returned as the very same cell with the store untouched, so
a component constructed from an existing Signal keeps that Signal's
identity, while a plain value is wrapped in a freshly allocated cell. -/
theorem signalify_idempotent_on_cells :
    (∀ (id : Nat) (opts : SignalifyOptions) (st : SigStore),
      signalify (.cell id) opts st = (id, st)) ∧
    (∀ (n : Int) (opts : SignalifyOptions) (st : SigStore),
      (signalify (.plain n) opts st).1 = st.nextId ∧
      (signalify (.plain n) opts st).2.nextId = st.nextId + 1) :=
  ⟨fun _ _ _ => rfl, fun _ _ _ => ⟨rfl, rfl⟩⟩

theorem tuiRectangleEvalSeq_keeps_col_row (sizes : List ConsoleSize) :
    ∀ (h : RectHeap),
      ((tuiRectangleEvalSeq sizes h) tuiRectAddr).column = (h tuiRectAddr).column ∧
      ((tuiRectangleEvalSeq sizes h) tuiRectAddr).row = (h tuiRectAddr).row := by
  induction sizes with
  | nil => intro h; exact ⟨rfl, rfl⟩
  | cons sz rest ih =>
      intro h
      have hstep :
          (((tuiRectangleCompute h sz).1) tuiRectAddr).column = (h tuiRectAddr).column ∧
          (((tuiRectangleCompute h sz).1) tuiRectAddr).row = (h tuiRectAddr).row := by
        unfold tuiRectangleCompute
        dsimp only
        rw [Function.update_same]
        exact ⟨rfl, rfl⟩
      have := ih ((tuiRectangleCompute h sz).1)
      exact ⟨this.1.trans hstep.1, this.2.trans hstep.2⟩

/-- C9: every evaluation of the Tui rectangle Computed returns the very
same object reference (the fixed address of the captured rectangle), so
consecutive computed values are reference-equal even when the terminal
size changed; the object is mutated in place so its width and height equal
the current console size while column and row stay 0 from construction. -/
theorem tui_rectangle_reference_identity :
    (∀ (h : RectHeap) (sz : ConsoleSize), (tuiRectangleCompute h sz).2 = tuiRectAddr) ∧
    (∀ (h : RectHeap) (sz1 sz2 : ConsoleSize),
      (tuiRectangleCompute ((tuiRectangleCompute h sz1).1) sz2).2 =
        (tuiRectangleCompute h sz1).2) ∧
    (∀ (sizes : List ConsoleSize) (sz : ConsoleSize),
      (((tuiRectangleCompute (tuiRectangleEvalSeq sizes tuiRectangleInitHeap) sz).1)
          tuiRectAddr).column = 0 ∧
      (((tuiRectangleCompute (tuiRectangleEvalSeq sizes tuiRectangleInitHeap) sz).1)
          tuiRectAddr).row = 0 ∧
      (((tuiRectangleCompute (tuiRectangleEvalSeq sizes tuiRectangleInitHeap) sz).1)
          tuiRectAddr).width = sz.columns ∧
      (((tuiRectangleCompute (tuiRectangleEvalSeq sizes tuiRectangleInitHeap) sz).1)
          tuiRectAddr).height = sz.rows) := by
  refine ⟨fun h sz => rfl, fun h sz1 sz2 => rfl, fun sizes sz => ?_⟩
  have hseq := tuiRectangleEvalSeq_keeps_col_row sizes tuiRectangleInitHeap
  have hupd : ((tuiRectangleCompute (tuiRectangleEvalSeq sizes tuiRectangleInitHeap) sz).1)
      tuiRectAddr =
      { (tuiRectangleEvalSeq sizes tuiRectangleInitHeap) tuiRectAddr with
        width := sz.columns, height := sz.rows } := by
    unfold tuiRectangleCompute
    dsimp only
    rw [Function.update_same]
  rw [hupd]
  exact ⟨hseq.1, hseq.2, rfl, rfl⟩

theorem clamp_mem (n lo hi : Int) (h : lo ≤ hi) : lo ≤ clamp n lo hi ∧ clamp n lo hi ≤ hi := by
  unfold clamp
  constructor
  · exact le_max_right _ _
  · exact max_le (min_le_right _ _) h

/-- C10: whenever min ≤ max, every value any Slider input handler writes —
keyPress on an unmodified arrow key, mousePress while dragging without
modifiers, or mouseScroll — lies within [min, max], because each handler
clamps the stepped value before writing. -/
theorem slider_writes_clamped :
    ∀ (st : SliderData), st.min ≤ st.max →
      (∀ (e : KeyPressEvent) (v : Int),
        sliderKeyPress st e = some v → st.min ≤ v ∧ v ≤ st.max) ∧
      (∀ (e : MousePressEvent) (v : Int),
        sliderMousePress st e = some v → st.min ≤ v ∧ v ≤ st.max) ∧
      (∀ (scroll v : Int),
        sliderMouseScroll st scroll = some v → st.min ≤ v ∧ v ≤ st.max) := by
  intro st hmm
  refine ⟨?_, ?_, ?_⟩
  · intro e v
    obtain ⟨k, ec, es, em⟩ := e
    intro hv
    unfold sliderKeyPress at hv
    dsimp only at hv
    split at hv
    · exact absurd hv (by simp)
    · cases k <;> first
        | (injection hv with hv'; rw [← hv']; exact clamp_mem _ _ _ hmm)
        | exact absurd hv (by simp)
  · intro e v hv
    unfold sliderMousePress at hv
    split at hv
    · exact absurd hv (by simp)
    · injection hv with hv'
      rw [← hv']
      exact clamp_mem _ _ _ hmm
  · intro scroll v hv
    unfold sliderMouseScroll at hv
    injection hv with hv'
    rw [← hv']
    exact clamp_mem _ _ _ hmm

theorem slider_writes_clamped_witness :
    ((0 : Int) ≤ 10 ∧
      (0 : Int) ≤ 10 ∧ (10 : Int) ≤ 10) := by
  refine ⟨by decide, ?_⟩
  have h := (slider_writes_clamped
    { min := 0, max := 10, step := 3, value := 9, horizontal := true } (by decide)).1
    { key := .up, ctrl := false, shift := false, meta := false } 10 (by decide)
  exact h

end TuiSignals
